import Mathlib

/-!
Verification of the provider-abstraction layer of the Music JSON Tools
repository (`src/services/geminiService.ts`).

Strings are modelled as `List Char`.  JSON numbers are modelled as integers
(no claim involves fractional literals).  JavaScript string operations used
by the source (`String.prototype.replace` with its `$`-substitution patterns,
`split`, `trim`, `includes`, the two regexes of `translateJson`) are embedded
as executable functions on `List Char`.  `fetch` and the Gemini SDK call are
modelled as oracles supplied to the functions that use them.
-/

/-- Characters treated as whitespace by `String.prototype.trim`
(the inputs in this development only use the ASCII ones). -/
def jsWsChar (c : Char) : Bool :=
  c = ' ' || c = '\t' || c = '\n' || c = '\r' || c = '\x0b' || c = '\x0c'

/-- `String.prototype.trim`. -/
def jsTrim (s : List Char) : List Char :=
  ((s.dropWhile jsWsChar).reverse.dropWhile jsWsChar).reverse

/-- Split `s` at the first occurrence of `pat`, returning the part before and
the part after the occurrence.  `none` when `pat` does not occur in `s`.
This is the search underlying `String.prototype.replace` with a string
pattern (and `includes`). -/
def splitFirst (pat : List Char) : List Char → Option (List Char × List Char)
  | [] => if pat = [] then some ([], []) else none
  | c :: r =>
    if pat.isPrefixOf (c :: r) then some ([], (c :: r).drop pat.length)
    else (splitFirst pat r).map (fun p => (c :: p.1, p.2))

/-- `String.prototype.includes` for a nonempty haystack search. -/
def containsSub (s pat : List Char) : Bool :=
  (splitFirst pat s).isSome

/-- `GetSubstitution` of the ECMAScript `String.prototype.replace` with a
string pattern: `$$`, `$&` (matched text), `$` + backtick (text before the
match) and `$'` (text after the match) are expanded in the replacement;
everything else is literal (there are no capture groups for a string
pattern). -/
def expandDollar (matched before after : List Char) : List Char → List Char
  | '$' :: '$' :: r => '$' :: expandDollar matched before after r
  | '$' :: '&' :: r => matched ++ expandDollar matched before after r
  | '$' :: '\x60' :: r => before ++ expandDollar matched before after r
  | '$' :: '\x27' :: r => after ++ expandDollar matched before after r
  | c :: r => c :: expandDollar matched before after r
  | [] => []

/-- `s.replace(pat, rep)` for string `pat`: replace the first occurrence of
`pat` (if any) by `rep` with `$`-patterns expanded. -/
def replaceFirstJS (s pat rep : List Char) : List Char :=
  match splitFirst pat s with
  | none => s
  | some (a, b) => a ++ expandDollar pat a b rep ++ b

/-- `String.prototype.split('.')`. -/
def splitDot : List Char → List (List Char)
  | [] => [[]]
  | c :: r =>
    if c = '.' then [] :: splitDot r
    else match splitDot r with
      | [] => [[c]]
      | seg :: segs => (c :: seg) :: segs

/-- JSON values.  Numbers are modelled as integers. -/
inductive Json where
  | null
  | bool (b : Bool)
  | num (n : Int)
  | str (s : List Char)
  | arr (xs : List Json)
  | obj (kvs : List (List Char × Json))

/-- Decimal digit to character. -/
def digitChar (d : Nat) : Char := Char.ofNat (48 + d)

/-- Decimal representation of a natural number. -/
def natChars (n : Nat) : List Char :=
  if n = 0 then ['0'] else ((Nat.digits 10 n).map digitChar).reverse

/-- Decimal representation of an integer, as printed by `JSON.stringify`. -/
def intChars (n : Int) : List Char :=
  if n < 0 then '-' :: natChars n.natAbs else natChars n.natAbs

/-- Hexadecimal digit to character (lower case, as printed by
`JSON.stringify`). -/
def hexChar (d : Nat) : Char :=
  if d < 10 then Char.ofNat (48 + d) else Char.ofNat (87 + d)

/-- The escape `JSON.stringify` prints for one character of a string:
`\"`, `\\`, the short escapes for the five named control characters,
`\u00XX` for the remaining control characters, the character itself
otherwise. -/
def encChar (c : Char) : List Char :=
  if c = '"' then ['\\', '"']
  else if c = '\\' then ['\\', '\\']
  else if c = '\x08' then ['\\', 'b']
  else if c = '\x0c' then ['\\', 'f']
  else if c = '\n' then ['\\', 'n']
  else if c = '\r' then ['\\', 'r']
  else if c = '\t' then ['\\', 't']
  else if c.toNat < 32 then
    ['\\', 'u', '0', '0', hexChar (c.toNat / 16), hexChar (c.toNat % 16)]
  else [c]

/-- The body (between the quotes) of the JSON string literal
`JSON.stringify` prints for a string. -/
def encBody (s : List Char) : List Char := s.flatMap encChar

/-- `JSON.stringify` of a string: a JSON string literal including its own
surrounding quotes. -/
def encStr (s : List Char) : List Char := '"' :: encBody s ++ ['"']

mutual

/-- `JSON.stringify` (minified, no spacing), on the JSON model. -/
def jser : Json → List Char
  | .null => "null".toList
  | .bool true => "true".toList
  | .bool false => "false".toList
  | .num n => intChars n
  | .str s => encStr s
  | .arr xs => '[' :: jserElems xs ++ [']']
  | .obj kvs => '\x7b' :: jserMembers kvs ++ ['\x7d']
termination_by structural j => j

/-- Comma-separated serialization of array elements. -/
def jserElems : List Json → List Char
  | [] => []
  | [x] => jser x
  | x :: y :: t => jser x ++ ',' :: jserElems (y :: t)
termination_by structural l => l

/-- Comma-separated serialization of object members. -/
def jserMembers : List (List Char × Json) → List Char
  | [] => []
  | [kv] => encStr kv.1 ++ ':' :: jser kv.2
  | kv :: kv2 :: t => encStr kv.1 ++ ':' :: jser kv.2 ++ ',' :: jserMembers (kv2 :: t)
termination_by structural l => l

end

/-- JSON whitespace accepted by `JSON.parse` (space, tab, newline, return). -/
def jsonWs (c : Char) : Bool :=
  c = ' ' || c = '\t' || c = '\n' || c = '\r'

/-- Skip JSON whitespace. -/
def skipWs (s : List Char) : List Char := s.dropWhile jsonWs

/-- Value of a hexadecimal digit character. -/
def hexVal (c : Char) : Option Nat :=
  if '0' ≤ c ∧ c ≤ '9' then some (c.toNat - 48)
  else if 'a' ≤ c ∧ c ≤ 'f' then some (c.toNat - 87)
  else if 'A' ≤ c ∧ c ≤ 'F' then some (c.toNat - 55)
  else none

/-- Value of four hexadecimal digit characters. -/
def hex4 (a b c d : Char) : Option Nat :=
  match hexVal a, hexVal b, hexVal c, hexVal d with
  | some x, some y, some z, some w => some (((x * 16 + y) * 16 + z) * 16 + w)
  | _, _, _, _ => none

/-- Body of a JSON string literal, after the opening quote: reads
characters up to the closing quote, processing the JSON escapes.
Unescaped control characters are rejected, as by `JSON.parse`.  `\uXXXX`
escapes are decoded as the scalar they denote; surrogate escapes (which
in JavaScript produce UTF-16 units that `List Char` cannot represent, and
whose pairing no claim exercises) are rejected as a model boundary. -/
def parseStrBody : List Char → Option (List Char × List Char)
  | [] => none
  | c :: r =>
    if c = '"' then some ([], r)
    else if c = '\\' then
      match r with
      | [] => none
      | e :: r2 =>
        if e = '"' then (parseStrBody r2).map (fun p => ('"' :: p.1, p.2))
        else if e = '\\' then (parseStrBody r2).map (fun p => ('\\' :: p.1, p.2))
        else if e = '/' then (parseStrBody r2).map (fun p => ('/' :: p.1, p.2))
        else if e = 'b' then (parseStrBody r2).map (fun p => ('\x08' :: p.1, p.2))
        else if e = 'f' then (parseStrBody r2).map (fun p => ('\x0c' :: p.1, p.2))
        else if e = 'n' then (parseStrBody r2).map (fun p => ('\n' :: p.1, p.2))
        else if e = 'r' then (parseStrBody r2).map (fun p => ('\r' :: p.1, p.2))
        else if e = 't' then (parseStrBody r2).map (fun p => ('\t' :: p.1, p.2))
        else if e = 'u' then
          match r2 with
          | h1 :: h2 :: h3 :: h4c :: r3 =>
            match hex4 h1 h2 h3 h4c with
            | none => none
            | some n =>
              if 0xd800 ≤ n ∧ n < 0xe000 then none
              else (parseStrBody r3).map (fun p => (Char.ofNat n :: p.1, p.2))
          | _ => none
        else none
    else if c.toNat < 32 then none
    else (parseStrBody r).map (fun p => (c :: p.1, p.2))
termination_by structural s => s

/-- Numeric value of a list of decimal digit characters. -/
def digitsVal (ds : List Char) : Nat :=
  ds.foldl (fun a c => 10 * a + (c.toNat - 48)) 0

/-- Read a JSON natural number literal from the front of `s`: a nonempty
run of digits without a redundant leading zero.  A following `.`, `e` or
`E` is rejected: fractional and exponent literals are outside this integer
model of JSON numbers. -/
def parseNat (s : List Char) : Option (Nat × List Char) :=
  let ds := s.takeWhile (fun c => c.isDigit)
  let rest := s.dropWhile (fun c => c.isDigit)
  if ds.isEmpty then none
  else if ds.head? = some '0' ∧ ds.length ≠ 1 then none
  else match rest.head? with
    | some c => if c = '.' ∨ c = 'e' ∨ c = 'E' then none else some (digitsVal ds, rest)
    | none => some (digitsVal ds, rest)

/-- Mode of the fueled JSON parser: a single value, the elements of an
array after `[`, or the members of an object after the opening brace. -/
inductive PMode where
  | val
  | elems
  | members

/-- Result of the fueled JSON parser, per mode. -/
inductive PRes where
  | v (j : Json)
  | vs (l : List Json)
  | kvs (l : List (List Char × Json))

/-- Recursive-descent JSON parser (fueled; the fuel only bounds recursion
depth and is chosen generously by `jsonParse`).  Mode `.val` parses one
value after optional whitespace.  Mode `.elems` parses `e1, …, en ]` (a
nonempty comma-separated element list and the closing bracket); mode
`.members` parses the analogous nonempty member list and closing brace.
Empty arrays and objects are handled in mode `.val`.  Trailing commas and
unquoted keys are rejected, as by `JSON.parse`. -/
def parseF : Nat → PMode → List Char → Option (PRes × List Char)
  | 0, _, _ => none
  | f + 1, .val, s =>
    match skipWs s with
    | [] => none
    | c :: r =>
      if c = '\x7b' then
        match skipWs r with
        | '\x7d' :: r2 => some (.v (.obj []), r2)
        | r1 =>
          match parseF f .members r1 with
          | some (.kvs l, rest) => some (.v (.obj l), rest)
          | _ => none
      else if c = '[' then
        match skipWs r with
        | ']' :: r2 => some (.v (.arr []), r2)
        | r1 =>
          match parseF f .elems r1 with
          | some (.vs l, rest) => some (.v (.arr l), rest)
          | _ => none
      else if c = '"' then (parseStrBody r).map (fun p => (.v (.str p.1), p.2))
      else if c = 'n' then
        match r with
        | 'u' :: 'l' :: 'l' :: r2 => some (.v .null, r2)
        | _ => none
      else if c = 't' then
        match r with
        | 'r' :: 'u' :: 'e' :: r2 => some (.v (.bool true), r2)
        | _ => none
      else if c = 'f' then
        match r with
        | 'a' :: 'l' :: 's' :: 'e' :: r2 => some (.v (.bool false), r2)
        | _ => none
      else if c = '-' then (parseNat r).map (fun p => (.v (.num (-(p.1 : Int))), p.2))
      else if c.isDigit then (parseNat (c :: r)).map (fun p => (.v (.num (p.1 : Int)), p.2))
      else none
  | f + 1, .elems, s =>
    match parseF f .val s with
    | some (.v j, rest) =>
      (match skipWs rest with
       | ',' :: r2 =>
         (match parseF f .elems r2 with
          | some (.vs l, rest2) => some (.vs (j :: l), rest2)
          | _ => none)
       | ']' :: r2 => some (.vs [j], r2)
       | _ => none)
    | _ => none
  | f + 1, .members, s =>
    match skipWs s with
    | '"' :: r =>
      (match parseStrBody r with
       | some (k, rest) =>
         (match skipWs rest with
          | ':' :: r2 =>
            (match parseF f .val r2 with
             | some (.v v, rest2) =>
               (match skipWs rest2 with
                | ',' :: r4 =>
                  (match parseF f .members r4 with
                   | some (.kvs l, rest3) => some (.kvs ((k, v) :: l), rest3)
                   | _ => none)
                | '\x7d' :: r4 => some (.kvs [(k, v)], r4)
                | _ => none)
             | _ => none)
          | _ => none)
       | none => none)
    | _ => none
termination_by structural f _ _ => f

/-- `JSON.parse` on the model: parse one value and require only whitespace
after it.  The fuel `2 * s.length + 2` is an upper bound on the recursion
depth of the descent on `s`. -/
def jsonParse (s : List Char) : Option Json :=
  match parseF (2 * s.length + 2) .val s with
  | some (.v j, rest) => if skipWs rest = [] then some j else none
  | _ => none

/-- A JavaScript value reachable while resolving a response path: a decoded
JSON value or `undefined`.  (Prototype-inherited function-valued properties
such as `toString` are modelled as `undefined`; no claim depends on them.) -/
inductive JsVal where
  | jsUndefined
  | json (j : Json)

/-- JavaScript truthiness of such a value (`NaN` cannot arise here). -/
def truthy : JsVal → Bool
  | .jsUndefined => false
  | .json .null => false
  | .json (.bool b) => b
  | .json (.num n) => decide (n ≠ 0)
  | .json (.str s) => decide (s ≠ [])
  | .json (.arr _) => true
  | .json (.obj _) => true

/-- Decode a path segment as a canonical array index, the way a JavaScript
property key addresses an array element: a nonempty digit string without a
redundant leading zero. -/
def decodeIndex (s : List Char) : Option Nat :=
  if s.isEmpty then none
  else if s.all (fun c => c.isDigit) then
    if s.head? = some '0' ∧ s.length ≠ 1 then none else some (digitsVal s)
  else none

/-- Last-match lookup in an object member list: JavaScript objects built by
`JSON.parse` keep the last of duplicate keys. -/
def jLookup (kvs : List (List Char × Json)) (k : List Char) : Option Json :=
  kvs.foldl (fun acc kv => if kv.1 = k then some kv.2 else acc) none

/-- The JavaScript property access `acc[part]` on a decoded JSON value:
object key lookup; array element by canonical index, or array `length`;
string character by canonical index, or string `length`; `undefined`
otherwise. -/
def getProp : JsVal → List Char → JsVal
  | .jsUndefined, _ => .jsUndefined
  | .json .null, _ => .jsUndefined
  | .json (.bool _), _ => .jsUndefined
  | .json (.num _), _ => .jsUndefined
  | .json (.str s), seg =>
    if seg = "length".toList then .json (.num s.length)
    else match decodeIndex seg with
      | some i => match s[i]? with
        | some c => .json (.str [c])
        | none => .jsUndefined
      | none => .jsUndefined
  | .json (.arr xs), seg =>
    if seg = "length".toList then .json (.num xs.length)
    else match decodeIndex seg with
      | some i => match xs[i]? with
        | some x => .json x
        | none => .jsUndefined
      | none => .jsUndefined
  | .json (.obj kvs), seg =>
    match jLookup kvs seg with
    | some v => .json v
    | none => .jsUndefined

/-- One step of the reduction in `getNestedValue`: `acc && acc[part]`
returns `acc` itself when `acc` is falsy, and `acc[part]` otherwise. -/
def nestedStep (acc : JsVal) (part : List Char) : JsVal :=
  if truthy acc then getProp acc part else acc

/-- The fold of `getNestedValue` over already-split path segments. -/
def nestedFold (acc : JsVal) (parts : List (List Char)) : JsVal :=
  parts.foldl nestedStep acc

/-- `getNestedValue` of the source: split the path on dots and reduce with
`(acc, part) => acc && acc[part]` starting from the decoded object. -/
def getNestedValue (obj : Json) (path : List Char) : JsVal :=
  nestedFold (.json obj) (splitDot path)

/-- The typed error outcomes of the service (the source throws untyped
`Error`s; constructors here correspond one-to-one to its `throw` sites,
plus `geminiError` for an error raised by the Gemini SDK call, which the
source does not catch separately). -/
inductive ApiError where
  | configError
  | networkError (msg : List Char)
  | httpStatusError (status : Nat) (body : List Char)
  | parseError
  | extractionError (path : List Char)
  | noResponseText
  | geminiError (msg : List Char)
  | translationFailed
deriving DecidableEq

/-- Provider selector of `ApiSettings` (`types.ts`). -/
inductive ApiProvider where
  | GEMINI
  | CUSTOM
deriving DecidableEq

/-- The fields of `ApiSettings` used by the service. -/
structure ApiSettings where
  provider : ApiProvider
  customUrl : List Char
  customMethod : List Char
  customHeaders : List Char
  customBodyTemplate : List Char
  customResponsePath : List Char

/-- The HTTP request `callCustomApi` hands to `fetch`. -/
structure HttpRequest where
  url : List Char
  method : List Char
  headers : Json
  body : Option (List Char)

/-- Outcome of a `fetch` call: a transport-level rejection, or a response
with its `ok` flag, status and body text. -/
inductive FetchOutcome where
  | netError (msg : List Char)
  | response (ok : Bool) (status : Nat) (body : List Char)

/-- The pre-quoted placeholder `"{{prompt}}"` (with surrounding quotes). -/
def quotedPH : List Char := "\x22\x7b\x7bprompt\x7d\x7d\x22".toList

/-- The bare placeholder `{{prompt}}`. -/
def barePH : List Char := "\x7b\x7bprompt\x7d\x7d".toList

/-- The body-substitution step of `callCustomApi`: compute
`escapedPrompt = JSON.stringify(prompt)`; if the template contains the
pre-quoted placeholder, replace its first occurrence by `escapedPrompt`,
otherwise replace the first occurrence of the bare placeholder. -/
def substBody (template prompt : List Char) : List Char :=
  let escapedPrompt := encStr prompt
  if containsSub template quotedPH then replaceFirstJS template quotedPH escapedPrompt
  else replaceFirstJS template barePH escapedPrompt

/-- Steps 1 and 2 of `callCustomApi`: parse the header template with
`JSON.parse` (failure is the `Invalid Custom Headers format` error), build
the body by placeholder substitution, and assemble the request; the body is
sent only for POST. -/
def buildCustomRequest (settings : ApiSettings) (prompt : List Char) :
    Except ApiError HttpRequest :=
  match jsonParse settings.customHeaders with
  | none => .error .configError
  | some headers =>
    let bodyStr := substBody settings.customBodyTemplate prompt
    .ok ⟨settings.customUrl, settings.customMethod, headers,
         if settings.customMethod = "POST".toList then some bodyStr else none⟩

/-- Step 4 of `callCustomApi`: resolve the response path with
`getNestedValue` and require the result to be a string. -/
def extractText (json : Json) (path : List Char) : Except ApiError (List Char) :=
  match getNestedValue json path with
  | .json (.str s) => .ok s
  | _ => .error (.extractionError path)

/-- `callCustomApi`: build the request, submit it to the `fetch` oracle,
fail on a rejected fetch or a non-ok status, decode the response body as
JSON and extract the string at the response path. -/
def callCustomApi (prompt : List Char) (settings : ApiSettings)
    (fetch : HttpRequest → FetchOutcome) : Except ApiError (List Char) :=
  match buildCustomRequest settings prompt with
  | .error e => .error e
  | .ok req =>
    match fetch req with
    | .netError m => .error (.networkError m)
    | .response ok status body =>
      if ok then
        match jsonParse body with
        | none => .error .parseError
        | some json => extractText json settings.customResponsePath
      else .error (.httpStatusError status body)

/-- The global regex replace `text.replace(/```json\n?|\n?```/g, '')`:
scan left to right; at each position remove a leftmost match, which is
either `` ```json `` with an optional following newline, or three backticks
with an optional preceding newline; otherwise keep the character.  (The
alternative `` ```json `` wins at a position where both could match.) -/
def stripFences : List Char → List Char
  | '\x60' :: '\x60' :: '\x60' :: 'j' :: 's' :: 'o' :: 'n' :: '\n' :: rest => stripFences rest
  | '\x60' :: '\x60' :: '\x60' :: 'j' :: 's' :: 'o' :: 'n' :: rest => stripFences rest
  | '\n' :: '\x60' :: '\x60' :: '\x60' :: rest => stripFences rest
  | '\x60' :: '\x60' :: '\x60' :: rest => stripFences rest
  | c :: rest => c :: stripFences rest
  | [] => []

/-- Everything of `l` up to and including the last occurrence of `c`
(meaningful when `c ∈ l`). -/
def upToLast (c : Char) (l : List Char) : List Char :=
  ((l.reverse.dropWhile (fun x => !(x = c)))).reverse

/-- The regex match `cleanText.match(/(\{[\s\S]*\}|\[[\s\S]*\])/)`: the
match starts at the first position holding an opening brace with a closing
brace somewhere after it, or an opening bracket with a closing bracket
somewhere after it (the brace alternative is tried first at each position),
and the greedy `[\s\S]*` extends the match to the last closing delimiter of
the same kind. -/
def findJsonBlock : List Char → Option (List Char)
  | [] => none
  | c :: rest =>
    if c = '\x7b' ∧ '\x7d' ∈ rest then some ('\x7b' :: upToLast '\x7d' rest)
    else if c = '[' ∧ ']' ∈ rest then some ('[' :: upToLast ']' rest)
    else findJsonBlock rest

/-- The robust JSON extraction of `translateJson`: strip fence markers and
trim; if the block regex matches, keep only the match; `JSON.parse` the
result (failure is the terminal `SyntaxError` of the attempt). -/
def recoverJson (text : List Char) : Except ApiError Json :=
  let cleanText := jsTrim (stripFences text)
  let cleanText :=
    match findJsonBlock cleanText with
    | some m => m
    | none => cleanText
  match jsonParse cleanText with
  | some j => .ok j
  | none => .error .parseError

/-- Observable outcome of the retry loop: the backoff delays awaited (in
milliseconds, in order), the number of attempts started, and the final
result. -/
structure RetryOutcome (α : Type) where
  delays : List Nat
  attempts : Nat
  result : Except ApiError α

/-- The retry loop of `translateJson`: run `op` for attempts
`attempt, attempt+1, …` while `remaining` attempts are left; after a failed
attempt that is not the last, await `1000 * 2 ^ attempt` milliseconds; the
error of the last attempt is rethrown (`dflt` models the unreachable
`new Error("Translation failed...")` fallback of an empty loop). -/
def retryFrom (op : Nat → Except ApiError α) : Nat → Nat → RetryOutcome α
  | _, 0 => ⟨[], 0, .error .translationFailed⟩
  | attempt, remaining + 1 =>
    match op attempt with
    | .ok a => ⟨[], 1, .ok a⟩
    | .error e =>
      if remaining = 0 then ⟨[], 1, .error e⟩
      else
        let next := retryFrom op (attempt + 1) remaining
        ⟨1000 * 2 ^ attempt :: next.delays, next.attempts + 1, next.result⟩

/-- The retry loop with `maxRetries = 3`, attempts numbered from 1. -/
def retryLoop (op : Nat → Except ApiError α) : RetryOutcome α :=
  retryFrom op 1 3

/-- The default system instruction of `translateJson` (a template literal;
braces written `\x7b`/`\x7d`). -/
def defaultSystemInstruction : List Char :=
  ("\n    你是翻译专家，并且是音乐爱好者，你会讲输入的各个国家的语言、音乐描述、术语、歌词等音乐信息准确的翻译成中文。\n    \n    RULES:\n    1. Keep the JSON structure exactly the same. Do not change keys.\n    2. For every string value that is English text, translate it to Chinese.\n    3. Format the final value as \"Original English Value | Chinese Translation\".\n    4. If the value is empty, keep it empty.\n    5. If the value is a number or technical ID (like UUID), keep it as is.\n    6. Ensure music terminology is accurate (e.g., \"Verse\", \"Chorus\", \"BPM\", \"Chord Progression\").\n    \n    Example:\n    Input: \x7b \"description\": \"High energy rock song\" \x7d\n    Output: \x7b \"description\": \"High energy rock song | 高能量摇滚歌曲\" \x7d\n  ").toList

/-- The shared task framing of both prompt variants. -/
def taskFraming (jsonString : List Char) : List Char :=
  "Please translate the following JSON:\n\n\x60\x60\x60json\n".toList ++
    jsonString ++ "\n\x60\x60\x60".toList

/-- One attempt of `translateJson`'s loop body after the raw text was
obtained: fail when the text is empty (`No response text received`), then
run the robust JSON extraction and parse. -/
def attemptFromText (text : List Char) : Except ApiError Json :=
  if text = [] then .error .noResponseText else recoverJson text

/-- `translateJson`, with the two external calls abstracted as oracles:
`gemini attempt prompt` is `ai.models.generateContent` (already folded to
`response.text || ""`, so an `.ok []` is an absent response text), and
`fetch attempt` is the `fetch` of `callCustomApi` on that attempt.  Returns
the delays awaited, the number of attempts and the final result. -/
def translateJson (jsonData : Json) (customPrompt : Option (List Char))
    (apiSettings : Option ApiSettings)
    (gemini : Nat → List Char → Except ApiError (List Char))
    (fetch : Nat → HttpRequest → FetchOutcome) : RetryOutcome Json :=
  let systemInstruction :=
    match customPrompt with
    | some p => if p = [] then defaultSystemInstruction else p
    | none => defaultSystemInstruction
  let jsonString := jser jsonData
  let fullPromptForCustom :=
    systemInstruction ++ "\n\nTask: ".toList ++ taskFraming jsonString
  let geminiUserPrompt := taskFraming jsonString
  retryLoop (fun attempt =>
    let textE :=
      match apiSettings with
      | some settings =>
        if settings.provider = ApiProvider.CUSTOM then
          callCustomApi fullPromptForCustom settings (fetch attempt)
        else gemini attempt geminiUserPrompt
      | none => gemini attempt geminiUserPrompt
    match textE with
    | .error e => .error e
    | .ok text => attemptFromText text)

/-- A JSON template with exactly one hole, formalizing "a body template that
uses the placeholder inside otherwise-valid JSON": the hole sits at one
value position of an otherwise complete JSON document. -/
inductive JCtx where
  | hole
  | arrCtx (preE : List Json) (c : JCtx) (postE : List Json)
  | objCtx (preM : List (List Char × Json)) (k : List Char) (c : JCtx)
      (postM : List (List Char × Json))

/-- Plug a value into the hole of a template. -/
def fillCtx : JCtx → Json → Json
  | .hole, v => v
  | .arrCtx preE c postE, v => .arr (preE ++ fillCtx c v :: postE)
  | .objCtx preM k c postM, v => .obj (preM ++ (k, fillCtx c v) :: postM)

/-- Serialized elements standing before a given element, each followed by a
comma. -/
def jserPre (l : List Json) : List Char :=
  l.foldr (fun x acc => jser x ++ ',' :: acc) []

/-- Serialized elements standing after a given element, each preceded by a
comma. -/
def jserPost (l : List Json) : List Char :=
  l.foldr (fun x acc => ',' :: jser x ++ acc) []

/-- Serialized members standing before a given member, each followed by a
comma. -/
def jserPreM (l : List (List Char × Json)) : List Char :=
  l.foldr (fun kv acc => encStr kv.1 ++ ':' :: jser kv.2 ++ ',' :: acc) []

/-- Serialized members standing after a given member, each preceded by a
comma. -/
def jserPostM (l : List (List Char × Json)) : List Char :=
  l.foldr (fun kv acc => ',' :: encStr kv.1 ++ ':' :: jser kv.2 ++ acc) []

/-- The serialized text standing before the hole of a template. -/
def ctxPre : JCtx → List Char
  | .hole => []
  | .arrCtx preE c _ => '[' :: jserPre preE ++ ctxPre c
  | .objCtx preM k c _ => '\x7b' :: jserPreM preM ++ encStr k ++ ':' :: ctxPre c

/-- The serialized text standing after the hole of a template. -/
def ctxSuf : JCtx → List Char
  | .hole => []
  | .arrCtx _ c postE => ctxSuf c ++ jserPost postE ++ [']']
  | .objCtx _ _ c postM => ctxSuf c ++ jserPostM postM ++ ['\x7d']

/-- The template text itself: the serialization with the placeholder at the
hole, pre-quoted (`"{{prompt}}"`) or bare (`{{prompt}}`). -/
def serializeCtx (quoted : Bool) (C : JCtx) : List Char :=
  ctxPre C ++ (if quoted then quotedPH else barePH) ++ ctxSuf C

/-- The access path from the root to the hole of a template: object keys
and decimal array indices. -/
def ctxPath : JCtx → List (List Char)
  | .hole => []
  | .arrCtx preE c _ => natChars preE.length :: ctxPath c
  | .objCtx _ k c _ => k :: ctxPath c

/-- Hygiene of a template for path resolution: at every object level on the
way to the hole, the hole's key does not reappear among the members after
it (so the last-match lookup of a JavaScript object finds the hole). -/
def ctxClean : JCtx → Bool
  | .hole => true
  | .arrCtx _ c _ => ctxClean c
  | .objCtx _ k c postM => postM.all (fun kv => decide (kv.1 ≠ k)) && ctxClean c

/-- One step of plain structural path resolution: object key lookup or
array element at a decimal index. -/
def stepRes (j : Json) (seg : List Char) : Option Json :=
  match j with
  | .obj kvs => jLookup kvs seg
  | .arr xs =>
    (match decodeIndex seg with
     | some i => xs[i]?
     | none => none)
  | _ => none

/-- Plain structural resolution of a segment path against a JSON value
(the reference semantics a path is meant to have). -/
def resolvePath : List (List Char) → Json → Option Json
  | [], j => some j
  | seg :: rest, j =>
    match stepRes j seg with
    | some j' => resolvePath rest j'
    | none => none

/-- Every value visited while resolving the path, except possibly the final
one, is truthy. -/
def truthyAlong : Json → List (List Char) → Bool
  | _, [] => true
  | j, seg :: rest =>
    truthy (.json j) &&
      match stepRes j seg with
      | some j' => truthyAlong j' rest
      | none => true

/-- Join path segments with dots (left inverse of `splitDot` for nonempty
dot-free segments). -/
def joinDots : List (List Char) → List Char
  | [] => []
  | [s] => s
  | s :: t :: r => s ++ '.' :: joinDots (t :: r)

/-- Modelled from the spec (§4.1, claim C6): the substitution step as the
spec words it — the first occurrence of the pre-quoted placeholder if
present, else of the bare placeholder, is replaced by the encoded prompt
itself (no further processing); without a placeholder the template is
returned unmodified. -/
def specSubst (template p : List Char) : List Char :=
  match splitFirst quotedPH template with
  | some (a, b) => a ++ encStr p ++ b
  | none =>
    match splitFirst barePH template with
    | some (a, b) => a ++ encStr p ++ b
    | none => template

/-- The suffix of the text starting at its first opening brace or bracket. -/
def firstOpenSuffix : List Char → Option (List Char)
  | [] => none
  | c :: r =>
    if c = '\x7b' ∨ c = '[' then some (c :: r) else firstOpenSuffix r

/-- Everything of `l` up to and including the last closing brace or
bracket, or all of `l` if there is none. -/
def upToLastClose (l : List Char) : List Char :=
  (l.reverse.dropWhile (fun x => !(x = '\x7d' || x = ']'))).reverse

/-- Modelled from the spec (§4.2, claim C3): lenient recovery as the spec
words it — strip fence markers, fail with the parse error when no opening
brace or bracket exists, otherwise parse the substring from the first
opening delimiter to the last occurring `\x7d` or `]`. -/
def specRecover (text : List Char) : Except ApiError Json :=
  let clean := jsTrim (stripFences text)
  match firstOpenSuffix clean with
  | none => .error .parseError
  | some s =>
    let sub := if '\x7d' ∈ s ∨ ']' ∈ s then upToLastClose s else s
    match jsonParse sub with
    | some j => .ok j
    | none => .error .parseError

/-- The continuations a serialized JSON value is followed by during the
round-trip argument: nothing, or a separator or closing delimiter. -/
def RestOk (rest : List Char) : Prop :=
  ∀ c, rest.head? = some c → c = ',' ∨ c = ']' ∨ c = '\x7d'

/-- Concrete template of the C1 counterexample: `{"q":{{prompt}}}`. -/
def c1Tmpl : List Char := "\x7b\x22q\x22:\x7b\x7bprompt\x7d\x7d\x7d".toList

/-- Concrete prompt of the C1 counterexample: `$&`. -/
def c1Prompt : List Char := "$&".toList

/-- Concrete template context of the C1 witness: `{"q": <hole> }`. -/
def c1Ctx : JCtx := .objCtx [] "q".toList .hole []

/-- Concrete prompt of the C1 witness, containing a quote, a backslash and
a newline. -/
def c1WPrompt : List Char := "a\"b\\c\nd".toList

/-- Concrete template of the C6 counterexample: `{"q":"{{prompt}}"}`. -/
def c6Tmpl : List Char := "\x7b\x22q\x22:\x22\x7b\x7bprompt\x7d\x7d\x22\x7d".toList

/-- Concrete prompt of the C6 counterexample: `a$&b`. -/
def c6Prompt : List Char := "a$&b".toList

/-- The decoded response `{"choices":[{"message":{"content":"hi"}}]}` of
claim C2. -/
def c2Resp : Json :=
  .obj [("choices".toList,
    .arr [.obj [("message".toList, .obj [("content".toList, .str "hi".toList)])]])]

/-- The decoded response `{"a":""}` of claims C2 and C9. -/
def falsyResp : Json := .obj [("a".toList, .str [])]

/-- The fenced model output of claim C3. -/
def c3Fenced : List Char :=
  "Here is the result:\n\x60\x60\x60json\n\x7b\"a\":1\x7d\n\x60\x60\x60\nThanks".toList

/-- The C3 counterexample input `{} ]`: an opening brace whose last
same-kind closer precedes a later bracket. -/
def c3Mixed : List Char := "\x7b\x7d ]".toList

/-- Settings with an empty header template (claim C5). -/
def c5SettingsEH : ApiSettings :=
  ⟨.CUSTOM, "https://e".toList, "POST".toList, [], "\x7b\x7bprompt\x7d\x7d".toList,
    "p".toList⟩

/-- Settings with an empty body template (claim C5). -/
def c5SettingsEB : ApiSettings :=
  ⟨.CUSTOM, "https://e".toList, "POST".toList, "\x7b\x7d".toList, [], "p".toList⟩

/-- The document `{"k":"v"}` of claim C8. -/
def c8Doc : Json := .obj [("k".toList, .str "v".toList)]

/-- `JSON.parse` of the empty string fails. -/
theorem jsonParse_nil : jsonParse [] = none := rfl

/-- C4: for an operation that fails on every attempt, the loop of
`translateJson` makes exactly 3 attempts whatever errors the attempts
raise, awaits 1000·2¹ = 2000 ms after the first failure and
1000·2² = 4000 ms after the second, awaits nothing after the third, and the
terminal error is the error of the 3rd attempt.  Stated both for the retry
loop itself and for `translateJson` whose every attempt fails. -/
theorem c4_retry_three_attempts (e : Nat → ApiError) (jd : Json)
    (cp : Option (List Char)) (fetch : Nat → HttpRequest → FetchOutcome) :
    retryLoop (α := Json) (fun k => .error (e k)) =
      ⟨[1000 * 2 ^ 1, 1000 * 2 ^ 2], 3, .error (e 3)⟩
    ∧ retryLoop (α := Json) (fun k => .error (e k)) = ⟨[2000, 4000], 3, .error (e 3)⟩
    ∧ translateJson jd cp none (fun k _ => .error (e k)) fetch =
      ⟨[2000, 4000], 3, .error (e 3)⟩ :=
  ⟨rfl, rfl, rfl⟩

/-- C10: an adapter answer with empty response text makes the attempt fail
with the `No response text received` error and is retried like any other
failure: all three attempts run, with the usual backoff, and nothing is
returned as a successful empty result. -/
theorem c10_empty_text_retried (jd : Json) (cp : Option (List Char))
    (fetch : Nat → HttpRequest → FetchOutcome) :
    attemptFromText [] = .error .noResponseText
    ∧ translateJson jd cp none (fun _ _ => .ok []) fetch =
      ⟨[2000, 4000], 3, .error .noResponseText⟩ :=
  ⟨rfl, rfl⟩

/-- C8: with the built-in provider stubbed to echo its input prompt (which
carries the JSON task block), translating `{"k":"v"}` succeeds on the first
attempt and returns a value equal to `{"k":"v"}`. -/
theorem c8_echo_round_trip (fetch : Nat → HttpRequest → FetchOutcome) :
    translateJson c8Doc none none (fun _ prompt => .ok prompt) fetch =
      ⟨[], 1, .ok c8Doc⟩ :=
  rfl

/-- C7 counterexample: when all 3 attempts of a translate call fail, the
terminal error of `translateJson` is the 3rd attempt's error itself, not a
value wrapping it — here every attempt raises the same concrete error and
exactly that error comes back, and any error the call returns is equal (not
a distinct wrapping value) to the attempt error. -/
theorem c7_counterexample :
    (translateJson (.obj []) none none
        (fun _ _ => .error (.geminiError "boom".toList))
        (fun _ _ => .netError [])).result = .error (.geminiError "boom".toList)
    ∧ ∀ w : ApiError,
        (translateJson (.obj []) none none
            (fun _ _ => .error (.geminiError "boom".toList))
            (fun _ _ => .netError [])).result = .error w →
          w = .geminiError "boom".toList := by
  refine ⟨rfl, ?_⟩
  intro w hw
  have hres : (translateJson (.obj []) none none
      (fun _ _ => .error (.geminiError "boom".toList))
      (fun _ _ => .netError [])).result =
        Except.error (α := Json) (ApiError.geminiError "boom".toList) := rfl
  rw [hres] at hw
  exact (Except.error.inj hw).symm

/-- C7 (amended): when all 3 attempts fail, `translateJson` rethrows the
last attempt's error unmodified as the terminal error; the code defines no
wrapper around it. -/
theorem c7_amended (e : Nat → ApiError) (jd : Json) (cp : Option (List Char))
    (fetch : Nat → HttpRequest → FetchOutcome) :
    (translateJson jd cp none (fun k _ => .error (e k)) fetch).result = .error (e 3) :=
  rfl

/-- Substituting into an empty body template returns the empty string. -/
theorem substBody_nil (p : List Char) : substBody [] p = [] := rfl

/-- C5 counterexample: in `callCustomApi`, an empty header template is NOT
accepted as "no headers" — `JSON.parse("")` fails and the attempt ends with
the header `ConfigError` before any request is made; and an empty body
template does NOT fail with a `ConfigError` — the request is built with an
empty body and handed to `fetch` (here the attempt's outcome is the fetch
oracle's network error, proving the HTTP request was made). -/
theorem c5_counterexample :
    callCustomApi "x".toList c5SettingsEH (fun _ => .netError "m".toList) =
      .error .configError
    ∧ buildCustomRequest c5SettingsEB "x".toList =
      .ok ⟨"https://e".toList, "POST".toList, .obj [], some []⟩
    ∧ callCustomApi "x".toList c5SettingsEB (fun _ => .netError "m".toList) =
      .error (.networkError "m".toList) :=
  ⟨rfl, rfl, rfl⟩

/-- C5 (amended): an empty `headerTemplate` fails the attempt with the
header `ConfigError` (so it is not treated as "no headers"), while an empty
`bodyTemplate` is not rejected: whenever the header template parses, the
attempt proceeds to the HTTP request, whose body is the empty string for
POST (and absent for other methods). -/
theorem c5_empty_templates (s : ApiSettings) (p : List Char) :
    (s.customHeaders = [] →
      buildCustomRequest s p = .error .configError
      ∧ ∀ fetch, callCustomApi p s fetch = .error .configError)
    ∧ (s.customBodyTemplate = [] →
      ∀ hj, jsonParse s.customHeaders = some hj →
        buildCustomRequest s p =
          .ok ⟨s.customUrl, s.customMethod, hj,
            if s.customMethod = "POST".toList then some [] else none⟩) := by
  constructor
  · intro h
    have hb : buildCustomRequest s p = .error .configError := by
      unfold buildCustomRequest
      rw [h, jsonParse_nil]
    refine ⟨hb, fun fetch => ?_⟩
    unfold callCustomApi
    rw [hb]
  · intro h hj hparse
    unfold buildCustomRequest
    rw [hparse, h, substBody_nil]

/-- C5 witness: the amended statement applied to the concrete empty-header
and empty-body settings. -/
theorem c5_witness :
    buildCustomRequest c5SettingsEH "x".toList = .error .configError
    ∧ buildCustomRequest c5SettingsEB "x".toList =
      .ok ⟨"https://e".toList, "POST".toList, .obj [], some []⟩ := by
  refine ⟨((c5_empty_templates c5SettingsEH "x".toList).1 rfl).1, ?_⟩
  have h := (c5_empty_templates c5SettingsEB "x".toList).2 rfl (.obj []) rfl
  exact h

/-- The fold of `getNestedValue` leaves a falsy accumulator untouched:
`acc && acc[part]` short-circuits. -/
theorem nestedFold_falsy : ∀ (parts : List (List Char)) (acc : JsVal),
    truthy acc = false → nestedFold acc parts = acc := by
  intro parts
  induction parts with
  | nil => intro acc _; rfl
  | cons p ps ih =>
    intro acc h
    have hstep : nestedStep acc p = acc := by
      unfold nestedStep
      rw [h]
      simp
    show List.foldl nestedStep (nestedStep acc p) ps = acc
    rw [hstep]
    exact ih acc h

/-- A dot-free string splits into the single segment it is. -/
theorem splitDot_no_dot : ∀ s : List Char, '.' ∉ s → splitDot s = [s] := by
  intro s
  induction s with
  | nil => intro _; rfl
  | cons c r ih =>
    intro h
    have hc : ¬(c = '.') := fun e => h (e ▸ List.mem_cons_self c r)
    have hr : '.' ∉ r := fun m => h (List.mem_cons_of_mem _ m)
    simp [splitDot, hc, ih hr]

/-- Splitting a string that starts with a dot-free segment followed by a
dot peels off that segment. -/
theorem splitDot_cons_seg : ∀ (s rest : List Char), '.' ∉ s →
    splitDot (s ++ '.' :: rest) = s :: splitDot rest := by
  intro s
  induction s with
  | nil =>
    intro rest _
    show splitDot ('.' :: rest) = [] :: splitDot rest
    simp [splitDot]
  | cons c r ih =>
    intro rest h
    have hc : ¬(c = '.') := fun e => h (e ▸ List.mem_cons_self c r)
    have hr : '.' ∉ r := fun m => h (List.mem_cons_of_mem _ m)
    show splitDot (c :: (r ++ '.' :: rest)) = (c :: r) :: splitDot rest
    simp [splitDot, hc, ih rest hr]

/-- `splitDot` is a left inverse of `joinDots` on nonempty lists of
dot-free segments. -/
theorem splitDot_joinDots : ∀ segs : List (List Char), segs ≠ [] →
    (∀ seg ∈ segs, '.' ∉ seg) → splitDot (joinDots segs) = segs := by
  intro segs
  induction segs with
  | nil => intro h; exact absurd rfl h
  | cons s t ih =>
    intro _ hfree
    cases t with
    | nil =>
      show splitDot (joinDots [s]) = [s]
      have : joinDots [s] = s := rfl
      rw [this]
      exact splitDot_no_dot s (hfree s (List.mem_cons_self _ _))
    | cons t2 r =>
      show splitDot (s ++ '.' :: joinDots (t2 :: r)) = s :: (t2 :: r)
      rw [splitDot_cons_seg s _ (hfree s (List.mem_cons_self _ _))]
      rw [ih (by simp) (fun seg hm => hfree seg (List.mem_cons_of_mem _ hm))]

/-- A decodable array index is not the `length` key. -/
theorem decodeIndex_ne_length (seg : List Char) (i : Nat)
    (h : decodeIndex seg = some i) : seg ≠ "length".toList := by
  intro he
  rw [he] at h
  have : decodeIndex "length".toList = none := rfl
  rw [this] at h
  exact Option.noConfusion h

/-- Property access agrees with plain structural resolution wherever the
latter succeeds. -/
theorem getProp_of_stepRes (j : Json) (seg : List Char) (j' : Json)
    (h : stepRes j seg = some j') : getProp (.json j) seg = .json j' := by
  cases j with
  | obj kvs =>
    have hl : jLookup kvs seg = some j' := h
    show (match jLookup kvs seg with
          | some v => JsVal.json v
          | none => JsVal.jsUndefined) = JsVal.json j'
    rw [hl]
  | arr xs =>
    have harr : (match decodeIndex seg with
                 | some i => xs[i]?
                 | none => none) = some j' := h
    cases hd : decodeIndex seg with
    | none => rw [hd] at harr; exact Option.noConfusion harr
    | some i =>
      rw [hd] at harr
      have harr2 : xs[i]? = some j' := harr
      have hne : ¬(seg = "length".toList) := decodeIndex_ne_length seg i hd
      show (if seg = "length".toList then JsVal.json (.num xs.length)
            else match decodeIndex seg with
              | some i => match xs[i]? with
                | some x => JsVal.json x
                | none => JsVal.jsUndefined
              | none => JsVal.jsUndefined) = JsVal.json j'
      rw [if_neg hne, hd]
      show (match xs[i]? with
            | some x => JsVal.json x
            | none => JsVal.jsUndefined) = JsVal.json j'
      rw [harr2]
  | null => exact Option.noConfusion h
  | bool b => exact Option.noConfusion h
  | num n => exact Option.noConfusion h
  | str s => exact Option.noConfusion h

/-- Along a truthy chain, the fold of `getNestedValue` computes plain
structural resolution. -/
theorem nestedFold_of_resolve : ∀ (segs : List (List Char)) (j v : Json),
    truthyAlong j segs = true → resolvePath segs j = some v →
    nestedFold (.json j) segs = .json v := by
  intro segs
  induction segs with
  | nil =>
    intro j v _ hres
    have : j = v := Option.some.inj hres
    rw [← this]
    rfl
  | cons seg rest ih =>
    intro j v htr hres
    cases hst : stepRes j seg with
    | none =>
      unfold resolvePath at hres
      rw [hst] at hres
      exact Option.noConfusion hres
    | some j' =>
      unfold resolvePath at hres
      rw [hst] at hres
      unfold truthyAlong at htr
      rw [hst] at htr
      have htr2 : truthy (.json j) = true ∧ truthyAlong j' rest = true := by
        constructor
        · exact Bool.and_elim_left htr
        · exact Bool.and_elim_right htr
      show List.foldl nestedStep (nestedStep (.json j) seg) rest = JsVal.json v
      have hstep : nestedStep (.json j) seg = .json j' := by
        unfold nestedStep
        rw [htr2.1]
        simp only [if_true]
        exact getProp_of_stepRes j seg j' hst
      rw [hstep]
      exact ih j' v htr2.2 hres

/-- C9: `getNestedValue` folds with `acc && acc[part]`, so a falsy
accumulator (null, false, 0, the empty string, or `undefined`) is returned
immediately, with the remaining segments never consumed (the fold over
`p1 ++ p2` is the fold over `p2` after the fold over `p1`, and a falsy
accumulator is a fixed point); in particular resolving `a.b` against
`{"a":""}` yields the empty string, which `callCustomApi`'s extraction
accepts as a successful string result even though segment `b` was never
resolved. -/
theorem c9_falsy_short_circuit :
    (∀ (acc : JsVal) (parts : List (List Char)),
      truthy acc = false → nestedFold acc parts = acc)
    ∧ (∀ (acc : JsVal) (p1 p2 : List (List Char)),
      nestedFold acc (p1 ++ p2) = nestedFold (nestedFold acc p1) p2)
    ∧ getNestedValue falsyResp "a.b".toList = .json (.str [])
    ∧ extractText falsyResp "a.b".toList = .ok [] := by
  refine ⟨fun acc parts h => nestedFold_falsy parts acc h,
    fun acc p1 p2 => ?_, rfl, rfl⟩
  unfold nestedFold
  exact List.foldl_append nestedStep acc p1 p2

/-- C9 witness: the short-circuit applied to a concrete falsy accumulator
and concrete remaining segments. -/
theorem c9_witness :
    truthy (JsVal.json .null) = false
    ∧ nestedFold (.json .null) ["x".toList, "y".toList] = .json .null :=
  ⟨rfl, c9_falsy_short_circuit.1 _ _ rfl⟩

/-- C2 counterexample: resolving `a.b` against `{"a":""}` indexes into a
scalar (segment `b` cannot be resolved), so the claim demands an
`ExtractionError`; the code instead succeeds and returns the empty string,
because the falsy intermediate `""` short-circuits the fold. -/
theorem c2_counterexample : extractText falsyResp "a.b".toList = .ok [] := rfl

/-- C2 (amended): path resolution splits on dots and folds
`acc && acc[part]`.  The two concrete examples behave as claimed: for
`{"choices":[{"message":{"content":"hi"}}]}` the path
`choices.0.message.content` extracts `"hi"`, and `choices.1.x` fails with
the `ExtractionError`.  In general, whenever every value met along the path
is truthy and plain structural resolution (object keys and decimal array
indices) of the dot-free segments reaches a string, extraction returns that
string; a falsy intermediate value is instead returned immediately (see the
counterexample), so an `ExtractionError` is raised exactly when the fold's
final value is not a string, not necessarily at the first unresolvable
segment. -/
theorem c2_path_resolution :
    extractText c2Resp "choices.0.message.content".toList = .ok "hi".toList
    ∧ extractText c2Resp "choices.1.x".toList =
      .error (.extractionError "choices.1.x".toList)
    ∧ ∀ (j : Json) (segs : List (List Char)) (s : List Char),
        segs ≠ [] → (∀ seg ∈ segs, '.' ∉ seg) →
        truthyAlong j segs = true → resolvePath segs j = some (.str s) →
        extractText j (joinDots segs) = .ok s := by
  refine ⟨rfl, rfl, ?_⟩
  intro j segs s hne hfree htr hres
  unfold extractText getNestedValue
  rw [splitDot_joinDots segs hne hfree]
  rw [nestedFold_of_resolve segs j (.str s) htr hres]

/-- C2 witness: the general resolution statement applied to the concrete
response and path of the claim. -/
theorem c2_witness :
    extractText c2Resp
      (joinDots ["choices".toList, "0".toList, "message".toList, "content".toList]) =
      .ok "hi".toList :=
  c2_path_resolution.2.2 c2Resp _ "hi".toList (by decide) (by decide) rfl rfl

/-- The head of a `dropWhile` result falsifies the predicate. -/
theorem dropWhile_head_false {p : Char → Bool} :
    ∀ (l : List Char) (d : Char) (t : List Char),
      l.dropWhile p = d :: t → p d = false := by
  intro l
  induction l with
  | nil => intro d t h; exact List.noConfusion h
  | cons a l' ih =>
    intro d t h
    by_cases ha : p a = true
    · rw [List.dropWhile_cons_of_pos ha] at h
      exact ih d t h
    · rw [List.dropWhile_cons_of_neg ha] at h
      have : a = d := (List.cons.inj h).1
      rw [← this]
      exact Bool.eq_false_iff.mpr ha

/-- Decomposition at the last occurrence of a character: `upToLast c l`
ends with `c` and the remainder of `l` after it contains no further `c`. -/
theorem upToLast_spec (c : Char) (l : List Char) (h : c ∈ l) :
    ∃ mid suf, l = upToLast c l ++ suf ∧ upToLast c l = mid ++ [c] ∧ c ∉ suf := by
  have hmemr : c ∈ l.reverse := List.mem_reverse.mpr h
  set p : Char → Bool := fun x => !(x = c) with hp
  have hsplit : l.reverse.takeWhile p ++ l.reverse.dropWhile p = l.reverse :=
    List.takeWhile_append_dropWhile p l.reverse
  have hdnn : l.reverse.dropWhile p ≠ [] := by
    intro he
    have hall : ∀ x ∈ l.reverse, p x := List.dropWhile_eq_nil_iff.mp he
    have := hall c hmemr
    simp [hp] at this
  obtain ⟨d, t, hdt⟩ := List.exists_cons_of_ne_nil hdnn
  have hdc : d = c := by
    have := dropWhile_head_false (p := p) l.reverse d t hdt
    simpa [hp] using this
  refine ⟨t.reverse, (l.reverse.takeWhile p).reverse, ?_, ?_, ?_⟩
  · calc l = l.reverse.reverse := (List.reverse_reverse l).symm
      _ = (l.reverse.takeWhile p ++ l.reverse.dropWhile p).reverse := by rw [hsplit]
      _ = (l.reverse.dropWhile p).reverse ++ (l.reverse.takeWhile p).reverse := by
            rw [List.reverse_append]
      _ = upToLast c l ++ (l.reverse.takeWhile p).reverse := rfl
  · show (l.reverse.dropWhile p).reverse = t.reverse ++ [c]
    rw [hdt, hdc]
    simp
  · intro hmem
    have hmem2 : c ∈ l.reverse.takeWhile p := List.mem_reverse.mp hmem
    have := List.mem_takeWhile_imp hmem2
    simp [hp] at this

/-- Characterization of a successful block match: the text decomposes as
`pre ++ m ++ suf`; the match `m` is an opening brace followed by text and
the last closing brace (with no closing brace in `suf`), or the bracket
analogue; and no position inside `pre` could start a match (no opening
brace there with a closing brace after it, and no opening bracket with a
closing bracket after it). -/
theorem findJsonBlock_spec : ∀ (s m : List Char), findJsonBlock s = some m →
    ∃ pre suf, s = pre ++ m ++ suf
    ∧ ((∃ mid, m = '\x7b' :: mid ++ ['\x7d'] ∧ '\x7d' ∉ suf)
       ∨ (∃ mid, m = '[' :: mid ++ [']'] ∧ ']' ∉ suf))
    ∧ (∀ a c b, pre = a ++ c :: b →
        ¬(c = '\x7b' ∧ '\x7d' ∈ b ++ m ++ suf)
        ∧ ¬(c = '[' ∧ ']' ∈ b ++ m ++ suf)) := by
  intro s
  induction s with
  | nil => intro m h; exact Option.noConfusion h
  | cons c rest ih =>
    intro m h
    simp only [findJsonBlock] at h
    by_cases h1 : c = '\x7b' ∧ '\x7d' ∈ rest
    · rw [if_pos h1] at h
      have hm : m = '\x7b' :: upToLast '\x7d' rest := (Option.some.inj h).symm
      obtain ⟨mid, suf, hrest, hend, hnot⟩ := upToLast_spec '\x7d' rest h1.2
      refine ⟨[], suf, ?_, ?_, ?_⟩
      · rw [hm, h1.1]
        simp only [List.nil_append, List.cons_append]
        rw [← hrest]
      · exact Or.inl ⟨mid, by rw [hm, hend]; simp, hnot⟩
      · intro a c0 b hab
        cases a <;> exact List.noConfusion hab
    · rw [if_neg h1] at h
      by_cases h2 : c = '[' ∧ ']' ∈ rest
      · rw [if_pos h2] at h
        have hm : m = '[' :: upToLast ']' rest := (Option.some.inj h).symm
        obtain ⟨mid, suf, hrest, hend, hnot⟩ := upToLast_spec ']' rest h2.2
        refine ⟨[], suf, ?_, ?_, ?_⟩
        · rw [hm, h2.1]
          simp only [List.nil_append, List.cons_append]
          rw [← hrest]
        · exact Or.inr ⟨mid, by rw [hm, hend]; simp, hnot⟩
        · intro a c0 b hab
          cases a <;> exact List.noConfusion hab
      · rw [if_neg h2] at h
        obtain ⟨pre, suf, hs, hdisj, hfirst⟩ := ih m h
        refine ⟨c :: pre, suf, by rw [hs]; rfl, hdisj, ?_⟩
        intro a c0 b hab
        cases a with
        | nil =>
          have hc : c = c0 := (List.cons.inj hab).1
          have hb : pre = b := (List.cons.inj hab).2
          constructor
          · intro ⟨hcb, hmem⟩
            exact h1 ⟨hc.trans hcb, by rw [hs, hb]; exact hmem⟩
          · intro ⟨hcb, hmem⟩
            exact h2 ⟨hc.trans hcb, by rw [hs, hb]; exact hmem⟩
        | cons a0 a' =>
          have hpre : pre = a' ++ c0 :: b := (List.cons.inj hab).2
          exact hfirst a' c0 b hpre

/-- When the block regex does not match, no position of the text holds an
opening brace with a closing brace after it, nor an opening bracket with a
closing bracket after it. -/
theorem findJsonBlock_none : ∀ s : List Char, findJsonBlock s = none →
    ∀ a c b, s = a ++ c :: b →
      ¬(c = '\x7b' ∧ '\x7d' ∈ b) ∧ ¬(c = '[' ∧ ']' ∈ b) := by
  intro s
  induction s with
  | nil =>
    intro _ a c b hab
    cases a <;> exact List.noConfusion hab
  | cons c0 rest ih =>
    intro h a c b hab
    simp only [findJsonBlock] at h
    by_cases h1 : c0 = '\x7b' ∧ '\x7d' ∈ rest
    · rw [if_pos h1] at h
      exact Option.noConfusion h
    · rw [if_neg h1] at h
      by_cases h2 : c0 = '[' ∧ ']' ∈ rest
      · rw [if_pos h2] at h
        exact Option.noConfusion h
      · rw [if_neg h2] at h
        cases a with
        | nil =>
          have hc : c0 = c := (List.cons.inj hab).1
          have hb : rest = b := (List.cons.inj hab).2
          exact ⟨fun ⟨hcb, hmem⟩ => h1 ⟨hc.symm ▸ hcb, hb ▸ hmem⟩,
                 fun ⟨hcb, hmem⟩ => h2 ⟨hc.symm ▸ hcb, hb ▸ hmem⟩⟩
        | cons a0 a' =>
          exact ih h a' c b (List.cons.inj hab).2

/-- C3 counterexample: for the input `{} ]` the claim's recovery rule takes
the substring from the first opener `\x7b` to the last closing delimiter,
the `]`, which does not parse, so the claim demands a `ParseError`; the
code's regex instead stops at the last closing brace, recovers `\x7b\x7d`
and succeeds with the empty object. -/
theorem c3_counterexample :
    recoverJson c3Mixed = .ok (.obj [])
    ∧ specRecover c3Mixed = .error .parseError :=
  ⟨rfl, rfl⟩

/-- C3 (amended): lenient recovery strips the fence markers, then applies
the block regex: the match starts at the first position holding an opening
brace with a closing brace after it or an opening bracket with a closing
bracket after it, and extends greedily to the last closing delimiter of the
same kind as the opener (not to the last closing delimiter of either
kind).  When no such span exists the whole stripped text is parsed as-is
(so input `123` parses rather than failing for lack of an opening
delimiter); `ParseError` arises exactly when the finally-selected text is
not valid JSON.  The fenced example recovers and parses to `{"a":1}`. -/
theorem c3_lenient_recovery :
    recoverJson c3Fenced = .ok (.obj [("a".toList, .num 1)])
    ∧ recoverJson "123".toList = .ok (.num 123)
    ∧ (∀ s m : List Char, findJsonBlock s = some m →
        ∃ pre suf, s = pre ++ m ++ suf
        ∧ ((∃ mid, m = '\x7b' :: mid ++ ['\x7d'] ∧ '\x7d' ∉ suf)
           ∨ (∃ mid, m = '[' :: mid ++ [']'] ∧ ']' ∉ suf))
        ∧ (∀ a c b, pre = a ++ c :: b →
            ¬(c = '\x7b' ∧ '\x7d' ∈ b ++ m ++ suf)
            ∧ ¬(c = '[' ∧ ']' ∈ b ++ m ++ suf)))
    ∧ (∀ s : List Char, findJsonBlock s = none →
        ∀ a c b, s = a ++ c :: b →
          ¬(c = '\x7b' ∧ '\x7d' ∈ b) ∧ ¬(c = '[' ∧ ']' ∈ b)) :=
  ⟨rfl, rfl, findJsonBlock_spec, findJsonBlock_none⟩

/-- C3 witness: the block characterization applied to the concrete
stripped text of the fenced example. -/
theorem c3_witness :
    ∃ pre suf,
      jsTrim (stripFences c3Fenced) = pre ++ "\x7b\"a\":1\x7d".toList ++ suf
      ∧ ((∃ mid, "\x7b\"a\":1\x7d".toList = '\x7b' :: mid ++ ['\x7d'] ∧ '\x7d' ∉ suf)
         ∨ (∃ mid, "\x7b\"a\":1\x7d".toList = '[' :: mid ++ [']'] ∧ ']' ∉ suf))
      ∧ (∀ a c b, pre = a ++ c :: b →
          ¬(c = '\x7b' ∧ '\x7d' ∈ b ++ "\x7b\"a\":1\x7d".toList ++ suf)
          ∧ ¬(c = '[' ∧ ']' ∈ b ++ "\x7b\"a\":1\x7d".toList ++ suf)) :=
  c3_lenient_recovery.2.2.1 (jsTrim (stripFences c3Fenced)) "\x7b\"a\":1\x7d".toList rfl

/-- A dollar-free replacement string passes through `GetSubstitution`
unchanged. -/
theorem expandDollar_no_dollar (m a b : List Char) :
    ∀ rep, '$' ∉ rep → expandDollar m a b rep = rep := by
  intro rep
  induction rep with
  | nil => intro _; rfl
  | cons c r ih =>
    intro h
    have hc : ¬(c = '$') := fun e => h (e ▸ List.mem_cons_self c r)
    have hr : '$' ∉ r := fun hm => h (List.mem_cons_of_mem _ hm)
    rw [expandDollar.eq_def]
    split
    · rename_i heq; exact absurd (List.cons.inj heq).1 hc
    · rename_i heq; exact absurd (List.cons.inj heq).1 hc
    · rename_i heq; exact absurd (List.cons.inj heq).1 hc
    · rename_i heq; exact absurd (List.cons.inj heq).1 hc
    · rename_i c' r' _ _ _ _ heq
      have h1 : c = c' := (List.cons.inj heq).1
      have h2 : r = r' := (List.cons.inj heq).2
      rw [← h1, ← h2, ih hr]
    · rename_i heq
      exact List.noConfusion heq

/-- Hexadecimal digit characters are not the dollar sign. -/
theorem hexChar_ne_dollar : ∀ d, d < 16 → hexChar d ≠ '$' := by decide

/-- The escape of a non-dollar character contains no dollar sign. -/
theorem encChar_no_dollar (c : Char) (hc : ¬(c = '$')) : '$' ∉ encChar c := by
  unfold encChar
  split_ifs with h1 h2 h3 h4 h5 h6 h7 h8
  · decide
  · decide
  · decide
  · decide
  · decide
  · decide
  · decide
  · intro hm
    have hdiv : c.toNat / 16 < 16 := by omega
    have hmod : c.toNat % 16 < 16 := Nat.mod_lt _ (by omega)
    simp only [List.mem_cons] at hm
    rcases hm with h | h | h | h | h | h | h
    · exact absurd h (by decide)
    · exact absurd h (by decide)
    · exact absurd h (by decide)
    · exact absurd h (by decide)
    · exact hexChar_ne_dollar _ hdiv h.symm
    · exact hexChar_ne_dollar _ hmod h.symm
    · exact absurd h (List.not_mem_nil _)
  · intro hm
    simp only [List.mem_singleton] at hm
    exact hc hm.symm

/-- The JSON encoding of a dollar-free string is dollar-free. -/
theorem encStr_no_dollar (p : List Char) (hd : '$' ∉ p) : '$' ∉ encStr p := by
  intro hm
  unfold encStr at hm
  rcases List.mem_cons.mp hm with h | h
  · exact absurd h.symm (by decide)
  · rcases List.mem_append.mp h with h | h
    · obtain ⟨c, hcp, hce⟩ := List.mem_flatMap.mp h
      have hc : ¬(c = '$') := fun e => hd (e ▸ hcp)
      exact encChar_no_dollar c hc hce
    · exact absurd (List.mem_singleton.mp h).symm (by decide)

/-- Soundness of `splitFirst`: a successful split reassembles the input. -/
theorem splitFirst_eq (pat : List Char) : ∀ (s a b : List Char),
    splitFirst pat s = some (a, b) → s = a ++ pat ++ b := by
  intro s
  induction s with
  | nil =>
    intro a b h
    unfold splitFirst at h
    by_cases hp : pat = []
    · rw [if_pos hp] at h
      have h1 := Prod.mk.inj (Option.some.inj h)
      rw [← h1.1, ← h1.2, hp]
      rfl
    · rw [if_neg hp] at h
      exact Option.noConfusion h
  | cons c r ih =>
    intro a b h
    unfold splitFirst at h
    by_cases hpre : pat.isPrefixOf (c :: r) = true
    · rw [if_pos hpre] at h
      have h1 := Prod.mk.inj (Option.some.inj h)
      obtain ⟨t, ht⟩ := List.isPrefixOf_iff_prefix.mp hpre
      have hb : b = t := by
        rw [← h1.2, ← ht, List.drop_left]
      rw [← h1.1, hb, List.nil_append, ht]
    · rw [if_neg hpre] at h
      cases hsp : splitFirst pat r with
      | none => rw [hsp] at h; exact Option.noConfusion h
      | some ab =>
        obtain ⟨a', b'⟩ := ab
        rw [hsp] at h
        have h1 := Prod.mk.inj (Option.some.inj h)
        have hr := ih a' b' hsp
        rw [← h1.1, ← h1.2]
        show c :: r = (c :: a') ++ pat ++ b'
        rw [List.cons_append, List.cons_append, ← hr]

/-- `replace` with a dollar-free replacement rebuilds the string around the
first occurrence. -/
theorem replaceFirstJS_of_split (s pat rep a b : List Char)
    (h : splitFirst pat s = some (a, b)) (hd : '$' ∉ rep) :
    replaceFirstJS s pat rep = a ++ rep ++ b := by
  unfold replaceFirstJS
  rw [h]
  show a ++ expandDollar pat a b rep ++ b = a ++ rep ++ b
  rw [expandDollar_no_dollar pat a b rep hd]

/-- C6 counterexample: for the pre-quoted template `{"q":"{{prompt}}"}` and
the prompt `a$&b`, the inserted text is not the encoded prompt — the `$&`
of the encoded prompt is expanded by `String.prototype.replace` to the
matched `"{{prompt}}"` — so the produced body differs from the claim's
substitution. -/
theorem c6_counterexample : substBody c6Tmpl c6Prompt ≠ specSubst c6Tmpl c6Prompt := by
  decide

/-- C6 (amended): the substitution computes the JSON-encoded prompt and
performs one `replace`: of the first occurrence of the whole pre-quoted
placeholder if the template contains it, else of the first occurrence of
the bare placeholder; with no placeholder the template is returned
unmodified.  The text inserted is the encoded prompt passed through the
`$`-pattern expansion of `String.prototype.replace`; whenever the prompt
contains no `$` the result is exactly the claim's substitution
(`specSubst`). -/
theorem c6_substitution (t p : List Char) (hd : '$' ∉ p) :
    substBody t p = specSubst t p
    ∧ (splitFirst quotedPH t = none → splitFirst barePH t = none →
        substBody t p = t) := by
  have henc : '$' ∉ encStr p := encStr_no_dollar p hd
  have hmain : substBody t p = specSubst t p := by
    cases hq : splitFirst quotedPH t with
    | some ab =>
      obtain ⟨a, b⟩ := ab
      have h1 : substBody t p = a ++ encStr p ++ b := by
        unfold substBody
        rw [if_pos (show containsSub t quotedPH = true by simp [containsSub, hq])]
        exact replaceFirstJS_of_split t quotedPH (encStr p) a b hq henc
      have h2 : specSubst t p = a ++ encStr p ++ b := by
        unfold specSubst
        rw [hq]
      rw [h1, h2]
    | none =>
      have hcon : ¬(containsSub t quotedPH = true) := by simp [containsSub, hq]
      cases hb : splitFirst barePH t with
      | some ab =>
        obtain ⟨a, b⟩ := ab
        have h1 : substBody t p = a ++ encStr p ++ b := by
          unfold substBody
          rw [if_neg hcon]
          exact replaceFirstJS_of_split t barePH (encStr p) a b hb henc
        have h2 : specSubst t p = a ++ encStr p ++ b := by
          unfold specSubst
          rw [hq, hb]
        rw [h1, h2]
      | none =>
        have h1 : substBody t p = t := by
          unfold substBody
          rw [if_neg hcon]
          unfold replaceFirstJS
          rw [hb]
        have h2 : specSubst t p = t := by
          unfold specSubst
          rw [hq, hb]
        rw [h1, h2]
  refine ⟨hmain, fun hq hb => ?_⟩
  unfold substBody
  rw [if_neg (show ¬(containsSub t quotedPH = true) by simp [containsSub, hq])]
  unfold replaceFirstJS
  rw [hb]

/-- C6 witness: the amended statement at the concrete pre-quoted template
and a dollar-free prompt. -/
theorem c6_witness : substBody c6Tmpl "hello".toList = specSubst c6Tmpl "hello".toList :=
  (c6_substitution c6Tmpl "hello".toList (by decide)).1

/-- Serialization of a nonempty element list splits off its head. -/
theorem jserElems_cons : ∀ (x : Json) (post : List Json),
    jserElems (x :: post) = jser x ++ jserPost post := by
  intro x post
  induction post generalizing x with
  | nil => simp [jserElems, jserPost]
  | cons p t ih =>
    have h3 : jserElems (x :: p :: t) = jser x ++ ',' :: jserElems (p :: t) := by
      simp [jserElems]
    rw [h3, ih p]
    show jser x ++ ',' :: (jser p ++ jserPost t) = jser x ++ jserPost (p :: t)
    have hpost : jserPost (p :: t) = ',' :: jser p ++ jserPost t := rfl
    rw [hpost]
    simp

/-- A nonempty tail keeps its comma when an element is prepended. -/
theorem jserElems_cons_of_ne (b : Json) (l : List Json) (h : l ≠ []) :
    jserElems (b :: l) = jser b ++ ',' :: jserElems l := by
  cases l with
  | nil => exact absurd rfl h
  | cons y t => simp [jserElems]

/-- Serialization of an element list around a distinguished element. -/
theorem jserElems_decomp : ∀ (bs : List Json) (x : Json) (post : List Json),
    jserElems (bs ++ x :: post) = jserPre bs ++ (jser x ++ jserPost post) := by
  intro bs
  induction bs with
  | nil => intro x post; rw [List.nil_append, jserElems_cons]; rfl
  | cons b bs' ih =>
    intro x post
    show jserElems (b :: (bs' ++ x :: post)) = jserPre (b :: bs') ++ (jser x ++ jserPost post)
    rw [jserElems_cons_of_ne b _ (by simp), ih x post]
    have hpre : jserPre (b :: bs') = jser b ++ ',' :: jserPre bs' := rfl
    rw [hpre]
    simp

/-- Serialization of a nonempty member list splits off its head. -/
theorem jserMembers_cons : ∀ (kv : List Char × Json) (post : List (List Char × Json)),
    jserMembers (kv :: post) = encStr kv.1 ++ ':' :: jser kv.2 ++ jserPostM post := by
  intro kv post
  induction post generalizing kv with
  | nil => simp [jserMembers, jserPostM]
  | cons p t ih =>
    have h3 : jserMembers (kv :: p :: t) =
        encStr kv.1 ++ ':' :: jser kv.2 ++ ',' :: jserMembers (p :: t) := by
      simp [jserMembers]
    rw [h3, ih p]
    have hpost : jserPostM (p :: t) = ',' :: encStr p.1 ++ ':' :: jser p.2 ++ jserPostM t := rfl
    rw [hpost]
    simp

/-- A nonempty member tail keeps its comma when a member is prepended. -/
theorem jserMembers_cons_of_ne (b : List Char × Json) (l : List (List Char × Json))
    (h : l ≠ []) :
    jserMembers (b :: l) = encStr b.1 ++ ':' :: jser b.2 ++ ',' :: jserMembers l := by
  cases l with
  | nil => exact absurd rfl h
  | cons y t => simp [jserMembers]

/-- Serialization of a member list around a distinguished member. -/
theorem jserMembers_decomp : ∀ (bs : List (List Char × Json)) (k : List Char) (v : Json)
    (post : List (List Char × Json)),
    jserMembers (bs ++ (k, v) :: post) =
      jserPreM bs ++ (encStr k ++ ':' :: jser v ++ jserPostM post) := by
  intro bs
  induction bs with
  | nil =>
    intro k v post
    rw [List.nil_append, jserMembers_cons]
    rfl
  | cons b bs' ih =>
    intro k v post
    show jserMembers (b :: (bs' ++ (k, v) :: post)) =
      jserPreM (b :: bs') ++ (encStr k ++ ':' :: jser v ++ jserPostM post)
    rw [jserMembers_cons_of_ne b _ (by simp), ih k v post]
    have hpre : jserPreM (b :: bs') = encStr b.1 ++ ':' :: jser b.2 ++ ',' :: jserPreM bs' := rfl
    rw [hpre]
    simp

/-- The serialization of a filled template is the serialized text before
the hole, the serialization of the plugged value, and the text after the
hole. -/
theorem jser_fillCtx : ∀ (C : JCtx) (v : Json),
    jser (fillCtx C v) = ctxPre C ++ jser v ++ ctxSuf C := by
  intro C
  induction C with
  | hole => intro v; simp [fillCtx, ctxPre, ctxSuf]
  | arrCtx bs c post ih =>
    intro v
    show jser (.arr (bs ++ fillCtx c v :: post)) = _
    have h1 : jser (.arr (bs ++ fillCtx c v :: post)) =
        '[' :: jserElems (bs ++ fillCtx c v :: post) ++ [']'] := by
      simp [jser]
    rw [h1, jserElems_decomp, ih v]
    simp [ctxPre, ctxSuf]
  | objCtx bs k c post ih =>
    intro v
    show jser (.obj (bs ++ (k, fillCtx c v) :: post)) = _
    have h1 : jser (.obj (bs ++ (k, fillCtx c v) :: post)) =
        '\x7b' :: jserMembers (bs ++ (k, fillCtx c v) :: post) ++ ['\x7d'] := by
      simp [jser]
    rw [h1, jserMembers_decomp, ih v]
    simp [ctxPre, ctxSuf]

/-- Digit characters are digits. -/
theorem digitChar_isDigit : ∀ d, d < 10 → (digitChar d).isDigit = true := by decide

/-- Value of a digit character. -/
theorem digitChar_toNat : ∀ d, d < 10 → (digitChar d).toNat - 48 = d := by decide

/-- A nonzero digit does not print as `'0'`. -/
theorem digitChar_ne_zero : ∀ d, d < 10 → d ≠ 0 → digitChar d ≠ '0' := by decide

/-- Decimal representations are nonempty. -/
theorem natChars_ne_nil (n : Nat) : natChars n ≠ [] := by
  unfold natChars
  by_cases h : n = 0
  · rw [if_pos h]; simp
  · rw [if_neg h]
    simp only [ne_eq, List.reverse_eq_nil_iff, List.map_eq_nil_iff]
    exact Nat.digits_ne_nil_iff_ne_zero.mpr h

/-- Every character of a decimal representation is a digit. -/
theorem natChars_all_digits (n : Nat) : ∀ c ∈ natChars n, c.isDigit = true := by
  intro c hc
  unfold natChars at hc
  by_cases h : n = 0
  · rw [if_pos h] at hc
    have : c = '0' := List.mem_singleton.mp hc
    rw [this]
    decide
  · rw [if_neg h] at hc
    have hc2 := List.mem_reverse.mp hc
    obtain ⟨d, hd, hdc⟩ := List.mem_map.mp hc2
    have hlt : d < 10 := Nat.digits_lt_base (by norm_num) hd
    rw [← hdc]
    exact digitChar_isDigit d hlt

/-- A decimal representation has no redundant leading zero. -/
theorem natChars_no_leading_zero (n : Nat) :
    ¬((natChars n).head? = some '0' ∧ (natChars n).length ≠ 1) := by
  intro ⟨hhead, hlen⟩
  by_cases h : n = 0
  · apply hlen
    unfold natChars
    rw [if_pos h]
    rfl
  · have hL : natChars n = (Nat.digits 10 n).reverse.map digitChar := by
      unfold natChars
      rw [if_neg h, List.map_reverse]
    have hne : Nat.digits 10 n ≠ [] := Nat.digits_ne_nil_iff_ne_zero.mpr h
    have hlast : (Nat.digits 10 n).getLast? =
        some ((Nat.digits 10 n).getLast hne) := List.getLast?_eq_getLast _ hne
    have hh : (natChars n).head? =
        some (digitChar ((Nat.digits 10 n).getLast hne)) := by
      rw [hL, List.head?_map, List.head?_reverse, hlast]
      rfl
    rw [hh] at hhead
    have hd0 : digitChar ((Nat.digits 10 n).getLast hne) = '0' :=
      Option.some.inj hhead
    have hlt : (Nat.digits 10 n).getLast hne < 10 :=
      Nat.digits_lt_base (by norm_num) (List.getLast_mem hne)
    have hnz : (Nat.digits 10 n).getLast hne ≠ 0 :=
      Nat.getLast_digit_ne_zero 10 h
    exact digitChar_ne_zero _ hlt hnz hd0

/-- Folding base 10 over a digit list is `Nat.ofDigits`. -/
theorem foldr_ofDigits : ∀ L : List Nat,
    L.foldr (fun d a => 10 * a + d) 0 = Nat.ofDigits 10 L := by
  intro L
  induction L with
  | nil => simp [Nat.ofDigits_nil]
  | cons d t ih =>
    rw [List.foldr_cons, ih, Nat.ofDigits_cons]
    omega

/-- Digit-character folding agrees with numeric folding on digit lists. -/
theorem foldr_digitChar (L : List Nat) (h : ∀ d ∈ L, d < 10) :
    L.foldr (fun d a => 10 * a + ((digitChar d).toNat - 48)) 0 =
      L.foldr (fun d a => 10 * a + d) 0 := by
  induction L with
  | nil => rfl
  | cons d t ih =>
    rw [List.foldr_cons, List.foldr_cons]
    rw [ih (fun x hx => h x (List.mem_cons_of_mem _ hx))]
    rw [digitChar_toNat d (h d (List.mem_cons_self _ _))]

/-- The decimal representation evaluates back to its number. -/
theorem digitsVal_natChars (n : Nat) : digitsVal (natChars n) = n := by
  by_cases h : n = 0
  · rw [h]; rfl
  · unfold digitsVal natChars
    rw [if_neg h]
    rw [List.foldl_reverse, List.foldr_map]
    have h1 : (Nat.digits 10 n).foldr
        (fun d a => 10 * a + ((digitChar d).toNat - 48)) 0 = n := by
      rw [foldr_digitChar _ (fun d hd => Nat.digits_lt_base (by norm_num) hd)]
      rw [foldr_ofDigits]
      have := Nat.ofDigits_digits 10 n
      simpa using this
    exact h1

/-- `takeWhile`/`dropWhile` across a concatenation whose left part fully
satisfies the predicate and whose right part starts by falsifying it. -/
theorem takeDropWhile_append (p : Char → Bool) : ∀ (a b : List Char),
    (∀ c ∈ a, p c = true) → (∀ c, b.head? = some c → p c = false) →
    (a ++ b).takeWhile p = a ∧ (a ++ b).dropWhile p = b := by
  intro a
  induction a with
  | nil =>
    intro b _ hb
    cases b with
    | nil => exact ⟨rfl, rfl⟩
    | cons c t =>
      have hc : p c = false := hb c rfl
      constructor
      · show List.takeWhile p (c :: t) = []
        rw [List.takeWhile_cons, hc]
        simp
      · show List.dropWhile p (c :: t) = c :: t
        rw [List.dropWhile_cons, hc]
        simp
  | cons x a' ih =>
    intro b ha hb
    have hx : p x = true := ha x (List.mem_cons_self _ _)
    have ha' : ∀ c ∈ a', p c = true := fun c hc => ha c (List.mem_cons_of_mem _ hc)
    obtain ⟨ht, hd⟩ := ih b ha' hb
    constructor
    · show List.takeWhile p (x :: (a' ++ b)) = x :: a'
      rw [List.takeWhile_cons, hx]
      simp only [ht, if_true]
    · show List.dropWhile p (x :: (a' ++ b)) = b
      rw [List.dropWhile_cons, hx]
      simp only [hd, if_true]

/-- Reading a number from a decimal representation followed by a
well-delimited rest returns the number and the rest. -/
theorem parseNat_natChars (n : Nat) (rest : List Char) (hrest : RestOk rest) :
    parseNat (natChars n ++ rest) = some (n, rest) := by
  have hdig := natChars_all_digits n
  have hhead : ∀ c, rest.head? = some c → c.isDigit = false := by
    intro c hc
    rcases hrest c hc with h | h | h <;> rw [h] <;> decide
  obtain ⟨htake, hdrop⟩ :=
    takeDropWhile_append (fun c => c.isDigit) (natChars n) rest hdig hhead
  unfold parseNat
  simp only [htake, hdrop]
  rw [if_neg (by simp [natChars_ne_nil n])]
  rw [if_neg (natChars_no_leading_zero n)]
  cases hr : rest.head? with
  | none =>
    show some (digitsVal (natChars n), rest) = some (n, rest)
    rw [digitsVal_natChars]
  | some c =>
    have hne : ¬(c = '.' ∨ c = 'e' ∨ c = 'E') := by
      rcases hrest c hr with h | h | h <;> rw [h] <;> decide
    show (if c = '.' ∨ c = 'e' ∨ c = 'E' then none
          else some (digitsVal (natChars n), rest)) = some (n, rest)
    rw [if_neg hne, digitsVal_natChars]

/-- A decimal representation decodes as the array index it denotes. -/
theorem decodeIndex_natChars (n : Nat) : decodeIndex (natChars n) = some n := by
  unfold decodeIndex
  rw [if_neg (by simp [natChars_ne_nil n])]
  rw [if_pos (by simpa using natChars_all_digits n)]
  rw [if_neg (natChars_no_leading_zero n), digitsVal_natChars]

/-- Last-match lookup with an initial accumulator. -/
theorem jLookup_fold (k : List Char) : ∀ (l : List (List Char × Json)) (init : Option Json),
    l.foldl (fun acc kv => if kv.1 = k then some kv.2 else acc) init =
      match jLookup l k with
      | some v => some v
      | none => init := by
  intro l
  induction l with
  | nil => intro init; rfl
  | cons kv t ih =>
    intro init
    show t.foldl _ (if kv.1 = k then some kv.2 else init) = _
    by_cases hk : kv.1 = k
    · rw [if_pos hk, ih (some kv.2)]
      have hcons : jLookup (kv :: t) k =
          match jLookup t k with
          | some v => some v
          | none => some kv.2 := by
        show t.foldl _ (if kv.1 = k then some kv.2 else none) = _
        rw [if_pos hk]
        exact ih (some kv.2)
      rw [hcons]
      cases jLookup t k <;> rfl
    · rw [if_neg hk, ih init]
      have hcons : jLookup (kv :: t) k = jLookup t k := by
        show t.foldl _ (if kv.1 = k then some kv.2 else none) = _
        rw [if_neg hk]
        rfl
      rw [hcons]

/-- A member list whose keys all differ from `k` yields no lookup result. -/
theorem jLookup_none_of_no_key : ∀ (l : List (List Char × Json)) (k : List Char),
    l.all (fun kv => decide (kv.1 ≠ k)) = true → jLookup l k = none := by
  intro l k h
  induction l with
  | nil => rfl
  | cons kv t ih =>
    have h1 : ¬(kv.1 = k) :=
      of_decide_eq_true (List.all_eq_true.mp h kv (List.mem_cons_self _ _))
    have h2 : jLookup (kv :: t) k = jLookup t k := by
      show t.foldl _ (if kv.1 = k then some kv.2 else none) = _
      rw [if_neg h1]
      rfl
    rw [h2]
    exact ih (List.all_eq_true.mpr
      (fun x hx => List.all_eq_true.mp h x (List.mem_cons_of_mem _ hx)))

/-- The hole's member wins the last-match lookup when its key does not
reappear after it. -/
theorem jLookup_hole (bs : List (List Char × Json)) (k : List Char) (v : Json)
    (post : List (List Char × Json))
    (hclean : post.all (fun kv => decide (kv.1 ≠ k)) = true) :
    jLookup (bs ++ (k, v) :: post) k = some v := by
  unfold jLookup
  rw [List.foldl_append, List.foldl_cons, if_pos rfl]
  rw [jLookup_fold k post (some v)]
  rw [jLookup_none_of_no_key post k hclean]

/-- Plain structural resolution of the hole path on a filled clean template
returns the plugged value. -/
theorem resolve_fillCtx : ∀ (C : JCtx) (v : Json), ctxClean C = true →
    resolvePath (ctxPath C) (fillCtx C v) = some v := by
  intro C
  induction C with
  | hole => intro v _; rfl
  | arrCtx bs c post ih =>
    intro v hclean
    have hstep : stepRes (.arr (bs ++ fillCtx c v :: post)) (natChars bs.length) =
        some (fillCtx c v) := by
      show (match decodeIndex (natChars bs.length) with
            | some i => (bs ++ fillCtx c v :: post)[i]?
            | none => none) = some (fillCtx c v)
      rw [decodeIndex_natChars]
      show (bs ++ fillCtx c v :: post)[bs.length]? = some (fillCtx c v)
      rw [List.getElem?_append_right (le_refl _)]
      simp
    show (match stepRes (.arr (bs ++ fillCtx c v :: post)) (natChars bs.length) with
          | some j' => resolvePath (ctxPath c) j'
          | none => none) = some v
    rw [hstep]
    exact ih v hclean
  | objCtx bs k c post ih =>
    intro v hclean
    have hcl : (post.all (fun kv => decide (kv.1 ≠ k)) && ctxClean c) = true := hclean
    have h1 : post.all (fun kv => decide (kv.1 ≠ k)) = true := Bool.and_elim_left hcl
    have h2 : ctxClean c = true := Bool.and_elim_right hcl
    have hstep : stepRes (.obj (bs ++ (k, fillCtx c v) :: post)) k = some (fillCtx c v) :=
      jLookup_hole bs k (fillCtx c v) post h1
    show (match stepRes (.obj (bs ++ (k, fillCtx c v) :: post)) k with
          | some j' => resolvePath (ctxPath c) j'
          | none => none) = some v
    rw [hstep]
    exact ih v h2

/-- Hexadecimal digit characters evaluate back to their value. -/
theorem hexVal_hexChar : ∀ d, d < 16 → hexVal (hexChar d) = some d := by decide

/-- Reduction: a closing quote ends the literal. -/
theorem parseStrBody_quote (r : List Char) : parseStrBody ('"' :: r) = some ([], r) := by
  conv_lhs => rw [parseStrBody.eq_def]
  simp +decide

/-- Reduction: the `\"` escape. -/
theorem parseStrBody_esc_quote (r : List Char) :
    parseStrBody ('\\' :: '"' :: r) = (parseStrBody r).map (fun p => ('"' :: p.1, p.2)) := by
  conv_lhs => rw [parseStrBody.eq_def]
  simp +decide

/-- Reduction: the `\\` escape. -/
theorem parseStrBody_esc_bslash (r : List Char) :
    parseStrBody ('\\' :: '\\' :: r) = (parseStrBody r).map (fun p => ('\\' :: p.1, p.2)) := by
  conv_lhs => rw [parseStrBody.eq_def]
  simp +decide

/-- Reduction: the `\b` escape. -/
theorem parseStrBody_esc_b (r : List Char) :
    parseStrBody ('\\' :: 'b' :: r) = (parseStrBody r).map (fun p => ('\x08' :: p.1, p.2)) := by
  conv_lhs => rw [parseStrBody.eq_def]
  simp +decide

/-- Reduction: the `\f` escape. -/
theorem parseStrBody_esc_f (r : List Char) :
    parseStrBody ('\\' :: 'f' :: r) = (parseStrBody r).map (fun p => ('\x0c' :: p.1, p.2)) := by
  conv_lhs => rw [parseStrBody.eq_def]
  simp +decide

/-- Reduction: the `\n` escape. -/
theorem parseStrBody_esc_n (r : List Char) :
    parseStrBody ('\\' :: 'n' :: r) = (parseStrBody r).map (fun p => ('\n' :: p.1, p.2)) := by
  conv_lhs => rw [parseStrBody.eq_def]
  simp +decide

/-- Reduction: the `\r` escape. -/
theorem parseStrBody_esc_r (r : List Char) :
    parseStrBody ('\\' :: 'r' :: r) = (parseStrBody r).map (fun p => ('\r' :: p.1, p.2)) := by
  conv_lhs => rw [parseStrBody.eq_def]
  simp +decide

/-- Reduction: the `\t` escape. -/
theorem parseStrBody_esc_t (r : List Char) :
    parseStrBody ('\\' :: 't' :: r) = (parseStrBody r).map (fun p => ('\t' :: p.1, p.2)) := by
  conv_lhs => rw [parseStrBody.eq_def]
  simp +decide

/-- Reduction: a `\uXXXX` escape denoting a non-surrogate scalar. -/
theorem parseStrBody_esc_u (a b c' d : Char) (r : List Char) (n : Nat)
    (hh : hex4 a b c' d = some n) (hns : ¬(0xd800 ≤ n ∧ n < 0xe000)) :
    parseStrBody ('\\' :: 'u' :: a :: b :: c' :: d :: r) =
      (parseStrBody r).map (fun p => (Char.ofNat n :: p.1, p.2)) := by
  conv_lhs => rw [parseStrBody.eq_def]
  simp +decide [hh, hns]

/-- Reduction: an ordinary character is kept. -/
theorem parseStrBody_raw (c : Char) (r : List Char) (h1 : ¬(c = '"'))
    (h2 : ¬(c = '\\')) (h8 : ¬(c.toNat < 32)) :
    parseStrBody (c :: r) = (parseStrBody r).map (fun p => (c :: p.1, p.2)) := by
  conv_lhs => rw [parseStrBody.eq_def]
  simp [h1, h2, h8]

/-- Reading a string-literal body produced by the encoder returns the
original string and the text after the closing quote. -/
theorem parseStrBody_enc : ∀ (s rest : List Char),
    parseStrBody (encBody s ++ '"' :: rest) = some (s, rest) := by
  intro s
  induction s with
  | nil =>
    intro rest
    rw [show encBody [] ++ '"' :: rest = '"' :: rest from rfl]
    exact parseStrBody_quote rest
  | cons c s' ih =>
    intro rest
    have hsplit : encBody (c :: s') ++ '"' :: rest =
        encChar c ++ (encBody s' ++ '"' :: rest) := by simp [encBody]
    rw [hsplit]
    by_cases h1 : c = '"'
    · subst h1
      rw [show encChar '"' = ['\\', '"'] from rfl, List.cons_append, List.cons_append,
        List.nil_append, parseStrBody_esc_quote, ih rest]
      rfl
    by_cases h2 : c = '\\'
    · subst h2
      rw [show encChar '\\' = ['\\', '\\'] from rfl, List.cons_append, List.cons_append,
        List.nil_append, parseStrBody_esc_bslash, ih rest]
      rfl
    by_cases h3 : c = '\x08'
    · subst h3
      rw [show encChar '\x08' = ['\\', 'b'] from rfl, List.cons_append, List.cons_append,
        List.nil_append, parseStrBody_esc_b, ih rest]
      rfl
    by_cases h4 : c = '\x0c'
    · subst h4
      rw [show encChar '\x0c' = ['\\', 'f'] from rfl, List.cons_append, List.cons_append,
        List.nil_append, parseStrBody_esc_f, ih rest]
      rfl
    by_cases h5 : c = '\n'
    · subst h5
      rw [show encChar '\n' = ['\\', 'n'] from rfl, List.cons_append, List.cons_append,
        List.nil_append, parseStrBody_esc_n, ih rest]
      rfl
    by_cases h6 : c = '\r'
    · subst h6
      rw [show encChar '\r' = ['\\', 'r'] from rfl, List.cons_append, List.cons_append,
        List.nil_append, parseStrBody_esc_r, ih rest]
      rfl
    by_cases h7 : c = '\t'
    · subst h7
      rw [show encChar '\t' = ['\\', 't'] from rfl, List.cons_append, List.cons_append,
        List.nil_append, parseStrBody_esc_t, ih rest]
      rfl
    by_cases h8 : c.toNat < 32
    · have henc : encChar c =
          ['\\', 'u', '0', '0', hexChar (c.toNat / 16), hexChar (c.toNat % 16)] := by
        unfold encChar
        rw [if_neg h1, if_neg h2, if_neg h3, if_neg h4, if_neg h5, if_neg h6,
            if_neg h7, if_pos h8]
      have hhex : hex4 '0' '0' (hexChar (c.toNat / 16)) (hexChar (c.toNat % 16)) =
          some c.toNat := by
        rw [show ('0' : Char) = hexChar 0 from rfl]
        unfold hex4
        rw [hexVal_hexChar 0 (by omega), hexVal_hexChar _ (by omega),
            hexVal_hexChar _ (Nat.mod_lt _ (by omega))]
        simp only [Option.some.injEq]
        omega
      have hns : ¬(0xd800 ≤ c.toNat ∧ c.toNat < 0xe000) := by omega
      rw [henc]
      simp only [List.cons_append, List.nil_append]
      rw [parseStrBody_esc_u _ _ _ _ _ c.toNat hhex hns, ih rest, Char.ofNat_toNat]
      rfl
    · have henc : encChar c = [c] := by
        unfold encChar
        rw [if_neg h1, if_neg h2, if_neg h3, if_neg h4, if_neg h5, if_neg h6,
            if_neg h7, if_neg h8]
      rw [henc, List.cons_append, List.nil_append,
        parseStrBody_raw c _ h1 h2 h8, ih rest]
      rfl

/-- A digit character is not JSON whitespace. -/
theorem jsonWs_of_digit (c : Char) (h : c.isDigit = true) : jsonWs c = false := by
  have w1 : ¬(c = ' ') := by intro he; rw [he] at h; exact absurd h (by decide)
  have w2 : ¬(c = '\t') := by intro he; rw [he] at h; exact absurd h (by decide)
  have w3 : ¬(c = '\n') := by intro he; rw [he] at h; exact absurd h (by decide)
  have w4 : ¬(c = '\r') := by intro he; rw [he] at h; exact absurd h (by decide)
  unfold jsonWs
  simp [w1, w2, w3, w4]

/-- `skipWs` does not move past a non-whitespace head. -/
theorem skipWs_cons_false (c : Char) (r : List Char) (h : jsonWs c = false) :
    skipWs (c :: r) = c :: r := by
  unfold skipWs
  rw [List.dropWhile_cons, h]
  simp

/-- The empty continuation is a valid continuation. -/
theorem restOk_nil : RestOk [] := by
  intro c hc
  simp at hc

/-- A continuation starting with a separator or closing delimiter is valid. -/
theorem restOk_cons (c : Char) (X : List Char)
    (h : c = ',' ∨ c = ']' ∨ c = '\x7d') : RestOk (c :: X) := by
  intro d hd
  rw [List.head?_cons] at hd
  injection hd with h2
  rw [← h2]
  exact h

/-- Every serialized value starts with a non-whitespace character other
than a closing bracket. -/
theorem jser_head : ∀ v : Json, ∃ c tl,
    jser v = c :: tl ∧ jsonWs c = false ∧ c ≠ ']' := by
  intro v
  cases v with
  | null => exact ⟨'n', ['u', 'l', 'l'], rfl, by decide, by decide⟩
  | bool b =>
    cases b with
    | true => exact ⟨'t', ['r', 'u', 'e'], rfl, by decide, by decide⟩
    | false => exact ⟨'f', ['a', 'l', 's', 'e'], rfl, by decide, by decide⟩
  | num n =>
    by_cases hn : n < 0
    · refine ⟨'-', natChars n.natAbs, ?_, by decide, by decide⟩
      simp [jser, intChars, hn]
    · obtain ⟨c, tl, hct⟩ : ∃ c tl, natChars n.natAbs = c :: tl := by
        cases h : natChars n.natAbs with
        | nil => exact absurd h (natChars_ne_nil _)
        | cons c tl => exact ⟨c, tl, rfl⟩
      have hcd : c.isDigit = true :=
        natChars_all_digits _ c (by rw [hct]; exact List.mem_cons_self _ _)
      refine ⟨c, tl, ?_, jsonWs_of_digit c hcd, ?_⟩
      · show jser (.num n) = c :: tl
        rw [show jser (.num n) = intChars n from by simp [jser]]
        unfold intChars
        rw [if_neg hn]
        exact hct
      · intro he; rw [he] at hcd; exact absurd hcd (by decide)
  | str s => exact ⟨'"', encBody s ++ ['"'], by simp [jser, encStr], by decide, by decide⟩
  | arr xs => exact ⟨'[', jserElems xs ++ [']'], by simp [jser], by decide, by decide⟩
  | obj kvs => exact ⟨'\x7b', jserMembers kvs ++ ['\x7d'], by simp [jser], by decide, by decide⟩

/-- Round trip of the fueled parser over the serializer, in all three
modes, by induction on the fuel: with enough fuel and a well-delimited
continuation, parsing a serialized value (or element list, or member
list) returns exactly that value and the continuation. -/
theorem parseF_jser : ∀ f : Nat,
    (∀ (v : Json) (rest : List Char), RestOk rest → (jser v).length < f →
      parseF f .val (jser v ++ rest) = some (.v v, rest)) ∧
    (∀ (l : List Json) (rest : List Char), l ≠ [] → RestOk rest →
      (jserElems l).length + 1 < f →
      parseF f .elems (jserElems l ++ ']' :: rest) = some (.vs l, rest)) ∧
    (∀ (l : List (List Char × Json)) (rest : List Char), l ≠ [] → RestOk rest →
      (jserMembers l).length + 1 < f →
      parseF f .members (jserMembers l ++ '\x7d' :: rest) = some (.kvs l, rest)) := by
  intro f
  induction f with
  | zero =>
    refine ⟨?_, ?_, ?_⟩
    · intro v rest _ hlen; exact absurd hlen (Nat.not_lt_zero _)
    · intro l rest _ _ hlen; exact absurd hlen (Nat.not_lt_zero _)
    · intro l rest _ _ hlen; exact absurd hlen (Nat.not_lt_zero _)
  | succ f ih =>
    obtain ⟨ihV, ihE, ihM⟩ := ih
    refine ⟨?_, ?_, ?_⟩
    · intro v rest hrest hlen
      cases v with
      | null =>
        rw [show jser Json.null ++ rest = 'n' :: 'u' :: 'l' :: 'l' :: rest from rfl]
        conv_lhs => rw [parseF.eq_def]
        simp +decide [skipWs, jsonWs]
      | bool b =>
        cases b with
        | true =>
          rw [show jser (Json.bool true) ++ rest = 't' :: 'r' :: 'u' :: 'e' :: rest from rfl]
          conv_lhs => rw [parseF.eq_def]
          simp +decide [skipWs, jsonWs]
        | false =>
          rw [show jser (Json.bool false) ++ rest =
            'f' :: 'a' :: 'l' :: 's' :: 'e' :: rest from rfl]
          conv_lhs => rw [parseF.eq_def]
          simp +decide [skipWs, jsonWs]
      | num n =>
        by_cases hn : n < 0
        · have hj : jser (Json.num n) ++ rest = '-' :: (natChars n.natAbs ++ rest) := by
            rw [show jser (Json.num n) = intChars n from by simp [jser]]
            unfold intChars
            rw [if_pos hn]
            simp
          rw [hj]
          conv_lhs => rw [parseF.eq_def]
          simp +decide [skipWs, jsonWs]
          rw [parseNat_natChars _ rest hrest]
          exact ⟨n.natAbs, rfl, by omega⟩
        · obtain ⟨c, t, hct⟩ : ∃ c t, natChars n.natAbs = c :: t := by
            cases h : natChars n.natAbs with
            | nil => exact absurd h (natChars_ne_nil _)
            | cons c t => exact ⟨c, t, rfl⟩
          have hcd : c.isDigit = true :=
            natChars_all_digits _ c (by rw [hct]; exact List.mem_cons_self _ _)
          have hws : jsonWs c = false := jsonWs_of_digit c hcd
          have h1 : ¬(c = '\x7b') := by intro he; rw [he] at hcd; exact absurd hcd (by decide)
          have h2 : ¬(c = '[') := by intro he; rw [he] at hcd; exact absurd hcd (by decide)
          have h3 : ¬(c = '"') := by intro he; rw [he] at hcd; exact absurd hcd (by decide)
          have h4 : ¬(c = 'n') := by intro he; rw [he] at hcd; exact absurd hcd (by decide)
          have h5 : ¬(c = 't') := by intro he; rw [he] at hcd; exact absurd hcd (by decide)
          have h6 : ¬(c = 'f') := by intro he; rw [he] at hcd; exact absurd hcd (by decide)
          have h7 : ¬(c = '-') := by intro he; rw [he] at hcd; exact absurd hcd (by decide)
          have hj : jser (Json.num n) ++ rest = c :: (t ++ rest) := by
            rw [show jser (Json.num n) = intChars n from by simp [jser]]
            unfold intChars
            rw [if_neg hn, hct]
            simp
          rw [hj]
          conv_lhs => rw [parseF.eq_def]
          simp [skipWs, List.dropWhile_cons, hws, h1, h2, h3, h4, h5, h6, h7, hcd]
          rw [← List.cons_append, ← hct, parseNat_natChars _ rest hrest]
          exact ⟨n.natAbs, rfl, by omega⟩
      | str s =>
        have hj : jser (Json.str s) ++ rest = '"' :: (encBody s ++ '"' :: rest) := by
          simp [jser, encStr]
        rw [hj]
        conv_lhs => rw [parseF.eq_def]
        simp +decide [skipWs, jsonWs, parseStrBody_enc]
      | arr xs =>
        cases xs with
        | nil =>
          have hj : jser (Json.arr []) ++ rest = '[' :: ']' :: rest := by
            simp [jser, jserElems]
          rw [hj]
          conv_lhs => rw [parseF.eq_def]
          simp +decide [skipWs, jsonWs]
        | cons y t =>
          have hja : jser (Json.arr (y :: t)) = '[' :: jserElems (y :: t) ++ [']'] := by
            simp [jser]
          have hlen2 : (jserElems (y :: t)).length + 1 < f := by
            rw [hja] at hlen
            simp only [List.length_cons, List.length_append, List.length_nil] at hlen
            omega
          obtain ⟨c, tl, hvh, hws, hrb⟩ := jser_head y
          have hXeq : jserElems (y :: t) ++ ']' :: rest =
              c :: (tl ++ jserPost t ++ ']' :: rest) := by
            rw [jserElems_cons, hvh]
            simp
          have hX : skipWs (jserElems (y :: t) ++ ']' :: rest) =
              jserElems (y :: t) ++ ']' :: rest := by
            rw [hXeq]
            exact skipWs_cons_false c _ hws
          have hj2 : jser (Json.arr (y :: t)) ++ rest =
              '[' :: (jserElems (y :: t) ++ ']' :: rest) := by
            rw [hja]; simp
          rw [hj2]
          have hsw0 : skipWs ('[' :: (jserElems (y :: t) ++ ']' :: rest)) =
              '[' :: (jserElems (y :: t) ++ ']' :: rest) :=
            skipWs_cons_false _ _ (by decide)
          conv_lhs => rw [parseF.eq_def]
          simp +decide [hsw0]
          rw [hX]
          split
          · rename_i r2 heq
            rw [hXeq] at heq
            exact absurd (List.cons.inj heq).1 hrb
          · rw [ihE (y :: t) rest (by simp) hrest hlen2]
      | obj kvs =>
        cases kvs with
        | nil =>
          have hj : jser (Json.obj []) ++ rest = '\x7b' :: '\x7d' :: rest := by
            simp [jser, jserMembers]
          rw [hj]
          conv_lhs => rw [parseF.eq_def]
          simp +decide [skipWs, jsonWs]
        | cons kv t =>
          obtain ⟨k, v⟩ := kv
          have hjo : jser (Json.obj ((k, v) :: t)) =
              '\x7b' :: jserMembers ((k, v) :: t) ++ ['\x7d'] := by
            simp [jser]
          have hlen2 : (jserMembers ((k, v) :: t)).length + 1 < f := by
            rw [hjo] at hlen
            simp only [List.length_cons, List.length_append, List.length_nil] at hlen
            omega
          have hXeq : jserMembers ((k, v) :: t) ++ '\x7d' :: rest =
              '"' :: (encBody k ++ '"' :: ':' ::
                (jser v ++ jserPostM t ++ '\x7d' :: rest)) := by
            rw [jserMembers_cons]
            simp [encStr]
          have hX : skipWs (jserMembers ((k, v) :: t) ++ '\x7d' :: rest) =
              jserMembers ((k, v) :: t) ++ '\x7d' :: rest := by
            rw [hXeq]
            exact skipWs_cons_false _ _ (by decide)
          have hj2 : jser (Json.obj ((k, v) :: t)) ++ rest =
              '\x7b' :: (jserMembers ((k, v) :: t) ++ '\x7d' :: rest) := by
            rw [hjo]; simp
          rw [hj2]
          have hsw0 : skipWs ('\x7b' :: (jserMembers ((k, v) :: t) ++ '\x7d' :: rest)) =
              '\x7b' :: (jserMembers ((k, v) :: t) ++ '\x7d' :: rest) :=
            skipWs_cons_false _ _ (by decide)
          conv_lhs => rw [parseF.eq_def]
          simp only [hsw0, if_true]
          rw [hX]
          split
          · rename_i r2 heq
            rw [hXeq] at heq
            exact absurd (List.cons.inj heq).1 (by decide)
          · rw [ihM ((k, v) :: t) rest (by simp) hrest hlen2]
    · intro l rest hl hrest hlen
      cases l with
      | nil => exact absurd rfl hl
      | cons y t =>
        cases t with
        | nil =>
          have he1 : jserElems [y] = jser y := by simp [jserElems]
          rw [he1] at hlen
          have hfuel : (jser y).length < f := by omega
          have hv := ihV y (']' :: rest) (restOk_cons _ _ (Or.inr (Or.inl rfl))) hfuel
          rw [show jserElems [y] ++ ']' :: rest = jser y ++ ']' :: rest from by rw [he1]]
          conv_lhs => rw [parseF.eq_def]
          simp +decide [skipWs, jsonWs, hv]
        | cons z t2 =>
          have he2 : jserElems (y :: z :: t2) = jser y ++ ',' :: jserElems (z :: t2) := by
            simp [jserElems]
          rw [he2] at hlen
          simp only [List.length_append, List.length_cons] at hlen
          have hfuel1 : (jser y).length < f := by omega
          have hfuel2 : (jserElems (z :: t2)).length + 1 < f := by omega
          have hv := ihV y (',' :: (jserElems (z :: t2) ++ ']' :: rest))
            (restOk_cons _ _ (Or.inl rfl)) hfuel1
          have hrec := ihE (z :: t2) rest (by simp) hrest hfuel2
          have hXeq : jserElems (y :: z :: t2) ++ ']' :: rest =
              jser y ++ ',' :: (jserElems (z :: t2) ++ ']' :: rest) := by
            rw [he2]; simp
          rw [hXeq]
          conv_lhs => rw [parseF.eq_def]
          simp +decide [skipWs, jsonWs, hv, hrec]
    · intro l rest hl hrest hlen
      cases l with
      | nil => exact absurd rfl hl
      | cons kv t =>
        obtain ⟨k, v⟩ := kv
        cases t with
        | nil =>
          have hm1 : jserMembers [(k, v)] = encStr k ++ ':' :: jser v := by
            simp [jserMembers]
          rw [hm1] at hlen
          simp only [List.length_append, List.length_cons] at hlen
          have hfuel : (jser v).length < f := by omega
          have hv := ihV v ('\x7d' :: rest) (restOk_cons _ _ (Or.inr (Or.inr rfl))) hfuel
          have hXeq : jserMembers [(k, v)] ++ '\x7d' :: rest =
              '"' :: (encBody k ++ '"' :: ':' :: (jser v ++ '\x7d' :: rest)) := by
            rw [hm1]; simp [encStr]
          rw [hXeq]
          conv_lhs => rw [parseF.eq_def]
          simp +decide [skipWs, jsonWs, parseStrBody_enc, hv]
        | cons kv2 t2 =>
          have hm2 : jserMembers ((k, v) :: kv2 :: t2) =
              encStr k ++ ':' :: jser v ++ ',' :: jserMembers (kv2 :: t2) := by
            simp [jserMembers]
          rw [hm2] at hlen
          simp only [List.length_append, List.length_cons] at hlen
          have hfuel1 : (jser v).length < f := by omega
          have hfuel2 : (jserMembers (kv2 :: t2)).length + 1 < f := by omega
          have hv := ihV v (',' :: (jserMembers (kv2 :: t2) ++ '\x7d' :: rest))
            (restOk_cons _ _ (Or.inl rfl)) hfuel1
          have hrec := ihM (kv2 :: t2) rest (by simp) hrest hfuel2
          have hXeq : jserMembers ((k, v) :: kv2 :: t2) ++ '\x7d' :: rest =
              '"' :: (encBody k ++ '"' :: ':' ::
                (jser v ++ ',' :: (jserMembers (kv2 :: t2) ++ '\x7d' :: rest))) := by
            rw [hm2]; simp [encStr]
          rw [hXeq]
          conv_lhs => rw [parseF.eq_def]
          simp +decide [skipWs, jsonWs, parseStrBody_enc, hv, hrec]

/-- The model `JSON.parse` inverts the model `JSON.stringify`. -/
theorem jsonParse_jser (v : Json) : jsonParse (jser v) = some v := by
  have h := (parseF_jser (2 * (jser v).length + 2)).1 v [] restOk_nil (by omega)
  rw [List.append_nil] at h
  unfold jsonParse
  rw [h]
  simp [skipWs]

/-- C1 counterexample: for the template `{"q":{{prompt}}}` (bare
placeholder at the value of key `q`, otherwise valid JSON) and the prompt
`$&`, the substituted body still parses as JSON, but the value at the
placeholder's key is the literal text `{{prompt}}` — the `$&` of the
encoded prompt is expanded by `String.prototype.replace` to the matched
placeholder — not the original prompt string, contradicting the claim. -/
theorem c1_counterexample :
    jsonParse (substBody c1Tmpl c1Prompt) =
      some (Json.obj [("q".toList, Json.str barePH)]) ∧
    barePH ≠ c1Prompt := by
  constructor
  · rfl
  · decide

/-- C1 (amended): restricted to dollar-free prompts and templates whose
first placeholder occurrence is the hole of an otherwise-valid JSON
template (and, in the bare mode, with no pre-quoted occurrence anywhere),
the substitution step is safe: the produced body is exactly the
serialization of the template with the prompt plugged in as a JSON
string, it parses as valid JSON to that value, and resolving the path to
the placeholder's position yields the original prompt string — for every
prompt, including ones containing quotes, backslashes, or newlines. -/
theorem c1_placeholder_safety (C : JCtx) (p : List Char) (quoted : Bool)
    (hd : '$' ∉ p) (hc : ctxClean C = true)
    (hq : splitFirst (if quoted then quotedPH else barePH) (serializeCtx quoted C) =
      some (ctxPre C, ctxSuf C))
    (hnq : quoted = false → splitFirst quotedPH (serializeCtx false C) = none) :
    substBody (serializeCtx quoted C) p = jser (fillCtx C (Json.str p)) ∧
    jsonParse (substBody (serializeCtx quoted C) p) = some (fillCtx C (Json.str p)) ∧
    resolvePath (ctxPath C) (fillCtx C (Json.str p)) = some (Json.str p) := by
  have henc : '$' ∉ encStr p := encStr_no_dollar p hd
  have hsub : substBody (serializeCtx quoted C) p =
      ctxPre C ++ encStr p ++ ctxSuf C := by
    cases quoted with
    | true =>
      simp only [if_true] at hq
      unfold substBody
      rw [if_pos (show containsSub (serializeCtx true C) quotedPH = true by
        simp [containsSub, hq])]
      exact replaceFirstJS_of_split _ quotedPH (encStr p) _ _ hq henc
    | false =>
      simp at hq
      unfold substBody
      rw [if_neg (show ¬(containsSub (serializeCtx false C) quotedPH = true) by
        simp [containsSub, hnq rfl])]
      exact replaceFirstJS_of_split _ barePH (encStr p) _ _ hq henc
  have hser : jser (fillCtx C (Json.str p)) = ctxPre C ++ encStr p ++ ctxSuf C := by
    rw [jser_fillCtx]
    simp [jser]
  refine ⟨?_, ?_, resolve_fillCtx C (Json.str p) hc⟩
  · rw [hsub, hser]
  · rw [hsub, ← hser]
    exact jsonParse_jser _

/-- C1 witness: the amended safety statement at the concrete bare-mode
template `{"q":{{prompt}}}` and the dollar-free prompt `a"b\c<newline>d`
containing a quote, a backslash and a newline. -/
theorem c1_witness :
    substBody (serializeCtx false c1Ctx) c1WPrompt =
      jser (fillCtx c1Ctx (Json.str c1WPrompt)) ∧
    jsonParse (substBody (serializeCtx false c1Ctx) c1WPrompt) =
      some (fillCtx c1Ctx (Json.str c1WPrompt)) ∧
    resolvePath (ctxPath c1Ctx) (fillCtx c1Ctx (Json.str c1WPrompt)) =
      some (Json.str c1WPrompt) :=
  c1_placeholder_safety c1Ctx c1WPrompt false (by decide) (by decide)
    (by decide) (fun _ => by decide)
